import Mathlib

/-!
A formal model of a FIX-style tag=value message codec consisting of an
ordered collection of (tag, byte-value) fields with an encoder (length
framing plus a mod-256 checksum) and a decoder (header extraction, field
scanning, checksum verification).  The definitions mirror the source files
`message.rs`, `field.rs` and `error.rs`; bytes are modelled as `Nat`
(`u8` values are below 256), tags as `Nat` (`u32` values are below
`2 ^ 32`), and fallible operations return `Except FixError`.
-/

deriving instance DecidableEq for Except

/-- The field delimiter byte `SOH` (0x01), from `field.rs`. -/
def SOH : Nat := 1

/-- The `=` separator byte (0x3D), from `field.rs`. -/
def EQUALS : Nat := 61

/-- The error taxonomy, from `error.rs`. -/
inductive FixError where
  | InvalidFormat
  | InvalidChecksum
  | MissingField (tag : Nat)
  | InvalidFieldValue
  | InvalidBodyLength
deriving DecidableEq, Repr

/-- One FIX field: a numeric tag (a `u32` in the source) together with a
raw byte value, from `field.rs`. -/
structure FixField where
  tag : Nat
  value : List Nat
deriving DecidableEq, Repr

/-- Decimal ASCII digits of `n`, most significant first, written with
explicit fuel so that it is structurally recursive.  Returns `[]` when
`n = 0` or the fuel runs out. -/
def natDecAux : Nat → Nat → List Nat
  | 0, _ => []
  | fuel + 1, n => if n = 0 then [] else natDecAux fuel (n / 10) ++ [n % 10 + 48]

/-- Decimal ASCII representation of `n`, as produced by `itoa` /
`to_string` in the source: no leading zeros, and `"0"` for zero. -/
def natDec (n : Nat) : List Nat :=
  if n = 0 then [48] else natDecAux (n + 1) n

/-- Numeric value of a run of ASCII decimal digits, accumulator style. -/
def decValAux (acc : Nat) : List Nat → Nat
  | [] => acc
  | b :: bs => decValAux (acc * 10 + (b - 48)) bs

/-- Is `b` the code of an ASCII decimal digit? -/
def isDigit (b : Nat) : Bool := 48 ≤ b && b ≤ 57

/-- Model of Rust's `str::parse::<u32>` applied to raw bytes: an optional
leading `+`, then one or more ASCII digits whose value fits in a `u32`. -/
def parseU32 (s : List Nat) : Option Nat :=
  let t := match s with
    | b :: rest => if b = 43 then rest else b :: rest
    | [] => []
  if !t.isEmpty && t.all isDigit then
    let v := decValAux 0 t
    if v < 2 ^ 32 then some v else none
  else none

/-- Index of the first occurrence of `c`, mirroring `memchr`. -/
def memchr (c : Nat) : List Nat → Option Nat
  | [] => none
  | b :: bs => if b = c then some 0 else Option.map (· + 1) (memchr c bs)

/-- Sum of a byte list (the checksum accumulator). -/
def sumBytes : List Nat → Nat
  | [] => 0
  | b :: bs => b + sumBytes bs

/-- Zero-padded three-digit rendering of `n`, as `format!("{:03}", n)`. -/
def pad3 (n : Nat) : List Nat :=
  List.replicate (3 - (natDec n).length) 48 ++ natDec n

/-- Wire encoding of a single field (`FixField::encode` in `field.rs`):
decimal tag, `=`, the raw value bytes, and the delimiter. -/
def fieldEncode (f : FixField) : List Nat :=
  natDec f.tag ++ [EQUALS] ++ f.value ++ [SOH]

/-- `FixField::encoded_len`: exact byte length of `fieldEncode`. -/
def FixField.encoded_len (f : FixField) : Nat :=
  (natDec f.tag).length + 1 + f.value.length + 1

/-- The in-memory message: a map from tag to the latest field inserted for
that tag (the `FxHashMap` of the source, modelled as an association list
with insert-overwrites semantics), plus the insertion-order trace of tags. -/
structure FixMessage where
  fields : List (Nat × FixField)
  field_order : List Nat
deriving DecidableEq, Repr

/-- Map insertion with overwrite: replaces the binding in place when the
key is present, appends otherwise (the observable behaviour of
`HashMap::insert`). -/
def mapInsert (fs : List (Nat × FixField)) (k : Nat) (v : FixField) :
    List (Nat × FixField) :=
  if fs.any (fun p => p.1 = k) then
    fs.map (fun p => if p.1 = k then (k, v) else p)
  else
    fs ++ [(k, v)]

/-- Map lookup (`HashMap::get`). -/
def mapGet (fs : List (Nat × FixField)) (k : Nat) : Option FixField :=
  (fs.find? (fun p => p.1 = k)).map Prod.snd

namespace FixMessage

/-- `FixMessage::new`. -/
def new : FixMessage := ⟨[], []⟩

/-- `FixMessage::with_capacity` (capacity has no observable effect). -/
def with_capacity (_capacity : Nat) : FixMessage := ⟨[], []⟩

/-- `FixMessage::add_field`: push the tag onto the order trace and insert
the field into the map, overwriting any previous binding for the tag. -/
def add_field (m : FixMessage) (f : FixField) : FixMessage :=
  ⟨mapInsert m.fields f.tag f, m.field_order ++ [f.tag]⟩

/-- `FixMessage::get_field`. -/
def get_field (m : FixMessage) (tag : Nat) : Option FixField :=
  mapGet m.fields tag

/-- `FixMessage::len`: the number of map entries. -/
def len (m : FixMessage) : Nat := m.fields.length

/-- `FixMessage::is_empty`. -/
def is_empty (m : FixMessage) : Bool := m.fields.isEmpty

/-- The per-tag summation loop of `calculate_message_size` (lines
170–179 of `message.rs`): tags other than 8 and 9 must be present in the
map, otherwise `MissingField(tag)`. -/
def sizeFields (m : FixMessage) : List Nat → Except FixError Nat
  | [] => .ok 0
  | tag :: rest =>
    if tag ≠ 8 && tag ≠ 9 then
      match m.get_field tag with
      | some f => match sizeFields m rest with
        | .ok r => .ok (f.encoded_len + r)
        | .error e => .error e
      | none => .error (.MissingField tag)
    else sizeFields m rest

/-- `FixMessage::calculate_message_size`. -/
def calculate_message_size (m : FixMessage) : Except FixError Nat :=
  match m.get_field 8 with
  | none => .error (.MissingField 8)
  | some begin_string =>
    match sizeFields m m.field_order with
    | .error e => .error e
    | .ok r => .ok (begin_string.encoded_len + (2 + 10 + 1) + r + 7)

/-- `FixMessage::encode_field`, returning the appended bytes instead of
mutating a buffer. -/
def encode_field (m : FixMessage) (tag : Nat) : Except FixError (List Nat) :=
  match m.get_field tag with
  | none => .error (.MissingField tag)
  | some f => .ok (fieldEncode f)

/-- The body loop of `encode` (lines 70–77 of `message.rs`): every tag of
the order trace except 8, 9, 35 and 10 is encoded, in order. -/
def encodeBodyFields (m : FixMessage) : List Nat → Except FixError (List Nat)
  | [] => .ok []
  | tag :: rest =>
    if tag ≠ 8 && tag ≠ 9 && tag ≠ 35 && tag ≠ 10 then
      match m.encode_field tag with
      | .error e => .error e
      | .ok fb =>
        match encodeBodyFields m rest with
        | .error e => .error e
        | .ok rb => .ok (fb ++ rb)
    else encodeBodyFields m rest

/-- `FixMessage::encode`: size pre-calculation (whose failures propagate),
begin-string field, `9=` + recomputed body length, the body (message type
first, then the remaining fields), and the checksum field `10=` + three
zero-padded digits of the byte sum mod 256. -/
def encode (m : FixMessage) : Except FixError (List Nat) :=
  match m.calculate_message_size with
  | .error e => .error e
  | .ok _estimated =>
    match m.encode_field 8 with
    | .error e => .error e
    | .ok f8 =>
      match m.encode_field 35 with
      | .error e => .error e
      | .ok f35 =>
        match encodeBodyFields m m.field_order with
        | .error e => .error e
        | .ok rest =>
          let body := f35 ++ rest
          let pre := f8 ++ [57, 61] ++ natDec body.length ++ [SOH] ++ body
          .ok (pre ++ [49, 48, 61] ++ pad3 (sumBytes pre % 256) ++ [SOH])

/-- `FixMessage::extract_field`: parse one delimiter-terminated field at
`start_pos`, requiring the parsed tag to equal `expected_tag`; returns the
position just past the field and the extended message. -/
def extract_field (data : List Nat) (start_pos : Nat) (expected_tag : Nat)
    (msg : FixMessage) : Except FixError (Nat × FixMessage) :=
  match memchr SOH (data.drop start_pos) with
  | none => .error .InvalidFormat
  | some field_end =>
    match memchr EQUALS ((data.drop start_pos).take field_end) with
    | none => .error .InvalidFormat
    | some equals_pos =>
      match parseU32 (((data.drop start_pos).take field_end).take equals_pos) with
      | none => .error .InvalidFormat
      | some tag =>
        if tag ≠ expected_tag then .error .InvalidFormat
        else .ok (start_pos + field_end + 1,
          msg.add_field ⟨tag, ((data.drop start_pos).take field_end).drop (equals_pos + 1)⟩)

/-- One pass of the scanning loop of `decode` (lines 111–128 of
`message.rs`), with an explicit fuel so that the recursion is structural
(each iteration strictly shortens the buffer, so `data.length` fuel always
suffices; the fuel-exhausted clause is unreachable from `scanFields`).  A
span with no delimiter is `InvalidFormat`; a span with no `=` is skipped;
a span whose tag text does not parse is `InvalidFormat`; otherwise the
field is added and the scan continues. -/
def scanFieldsAux : Nat → List Nat → FixMessage → Except FixError FixMessage
  | _, [], msg => .ok msg
  | 0, _ :: _, _ => .error .InvalidFormat
  | fuel + 1, b :: rest, msg =>
    match memchr SOH (b :: rest) with
    | none => .error .InvalidFormat
    | some field_end =>
      match memchr EQUALS ((b :: rest).take field_end) with
      | none => scanFieldsAux fuel ((b :: rest).drop (field_end + 1)) msg
      | some equals_pos =>
        match parseU32 (((b :: rest).take field_end).take equals_pos) with
        | none => .error .InvalidFormat
        | some tag =>
          scanFieldsAux fuel ((b :: rest).drop (field_end + 1))
            (msg.add_field ⟨tag, ((b :: rest).take field_end).drop (equals_pos + 1)⟩)

/-- The scanning loop of `decode` over the remaining bytes. -/
def scanFields (data : List Nat) (msg : FixMessage) : Except FixError FixMessage :=
  scanFieldsAux data.length data msg

/-- The field-collection phase of `decode` (lines 102–128): the three
mandatory header fields with tags 8, 9, 35 in order, then the scan of the
remaining fields. -/
def decodeFields (data : List Nat) : Except FixError FixMessage :=
  match extract_field data 0 8 (with_capacity 16) with
  | .error e => .error e
  | .ok (pos1, m1) =>
    match extract_field data pos1 9 m1 with
    | .error e => .error e
    | .ok (pos2, m2) =>
      match extract_field data pos2 35 m2 with
      | .error e => .error e
      | .ok (pos3, m3) => scanFields (data.drop pos3) m3

/-- `FixMessage::decode`: field collection followed by checksum
verification against the byte sum of everything but the final 7 bytes. -/
def decode (data : List Nat) : Except FixError FixMessage :=
  match decodeFields data with
  | .error e => .error e
  | .ok msg =>
    match msg.get_field 10 with
    | none => .error (.MissingField 10)
    | some checksum_field =>
      match parseU32 checksum_field.value with
      | none => .error .InvalidFormat
      | some received =>
        if sumBytes (data.take (data.length - 7)) % 256 ≠ received then
          .error .InvalidChecksum
        else .ok msg


/-- A well-behaved field: its tag fits in a `u32` and its value contains
no delimiter byte. -/
def FieldOk (f : FixField) : Prop := f.tag < 2 ^ 32 ∧ SOH ∉ f.value

/-- The invariant maintained by every message the public API can build:
the map keys are duplicate-free, a tag is a map key exactly when it occurs
in the order trace, and every stored field carries the tag it is keyed
under. -/
def Wf (m : FixMessage) : Prop :=
  (m.fields.map Prod.fst).Nodup ∧
  (∀ t, t ∈ m.fields.map Prod.fst ↔ t ∈ m.field_order) ∧
  (∀ p ∈ m.fields, p.2.tag = p.1)

/-- Messages reachable through the public constructors (`new`,
`with_capacity`), `add_field`, and successful `decode`. -/
inductive Reachable : FixMessage → Prop where
  | new : Reachable FixMessage.new
  | with_capacity (c : Nat) : Reachable (FixMessage.with_capacity c)
  | add {m : FixMessage} (f : FixField) : Reachable m → Reachable (m.add_field f)
  | decoded {data : List Nat} {m : FixMessage} :
      FixMessage.decode data = .ok m → Reachable m

/-- Byte/tag sanity of a message's stored fields, reflecting the Rust
types (`u32` tags) and delimiter-free values. -/
def MsgOk (m : FixMessage) : Prop :=
  ∀ p ∈ m.fields, p.1 < 2 ^ 32 ∧ SOH ∉ p.2.value

/-- The list of fields emitted by the body loop of `encode`, in order:
for each order-trace entry other than 8, 9, 35 and 10, the field the map
currently holds for it. -/
def bodyTagFields (m : FixMessage) : List Nat → List FixField
  | [] => []
  | t :: rest =>
    if t ≠ 8 && t ≠ 9 && t ≠ 35 && t ≠ 10 then
      (match m.get_field t with
       | some f => [f]
       | none => []) ++ bodyTagFields m rest
    else bodyTagFields m rest

/-- The prefix of an encoded message before the checksum field: the
begin-string field, the `9=<len>` body-length field, and the body. -/
def wirePre (f8 : FixField) (body : List Nat) : List Nat :=
  fieldEncode f8 ++ [57, 61] ++ natDec body.length ++ [SOH] ++ body

/-- The body emitted by `encode`: message-type field first, then the
other fields in order. -/
def bodyOf (f35 : FixField) (bfs : List FixField) : List Nat :=
  fieldEncode f35 ++ (bfs.map fieldEncode).flatten

/-- The checksum value `encode` appends. -/
def checkOf (f8 f35 : FixField) (bfs : List FixField) : Nat :=
  sumBytes (wirePre f8 (bodyOf f35 bfs)) % 256

/-- The complete wire image `encode` produces. -/
def wireOf (f8 f35 : FixField) (bfs : List FixField) : List Nat :=
  wirePre f8 (bodyOf f35 bfs) ++ [49, 48, 61] ++ pad3 (checkOf f8 f35 bfs) ++ [SOH]

/-- The message `decode` reconstructs from `wireOf f8 f35 bfs`. -/
def decodedOf (f8 f35 : FixField) (bfs : List FixField) : FixMessage :=
  (bfs.foldl add_field
    ((((with_capacity 16).add_field f8).add_field
        ⟨9, natDec (bodyOf f35 bfs).length⟩).add_field f35)).add_field
    ⟨10, pad3 (checkOf f8 f35 bfs)⟩

/-- Does the delimiter-terminated span at the head of `s` parse as a field
with tag `expected`?  (The span has a delimiter, contains a separator, and
its tag text parses to `expected`.) -/
def spanCheck (s : List Nat) (expected : Nat) : Bool :=
  match memchr SOH s with
  | none => false
  | some i =>
    match memchr EQUALS (s.take i) with
    | none => false
    | some j =>
      match parseU32 ((s.take i).take j) with
      | none => false
      | some tag => tag == expected

/-- The number of bytes the span at the head of `s` occupies, delimiter
included (`0` when no delimiter exists). -/
def spanLen (s : List Nat) : Nat :=
  match memchr SOH s with
  | none => 0
  | some i => i + 1

/-- The three leading delimiter-terminated fields carry tags 8, 9 and 35,
in that order. -/
def headerOk (data : List Nat) : Bool :=
  spanCheck data 8 &&
    (spanCheck (data.drop (spanLen data)) 9 &&
      spanCheck ((data.drop (spanLen data)).drop
        (spanLen (data.drop (spanLen data)))) 35)

/-- Every stored value is made of `u8` bytes. -/
def MsgBytes (m : FixMessage) : Prop :=
  ∀ p ∈ m.fields, ∀ b ∈ p.2.value, b < 256

/-- Tag sanity for every stored field, and delimiter-free values for the
fields whose value `encode` actually emits: the entries keyed 9 (the
body-length placeholder, whose value encode discards) and 10 (the
checksum, which encode recomputes) may hold any value. -/
def MsgOkBody (m : FixMessage) : Prop :=
  ∀ p ∈ m.fields, p.1 < 2 ^ 32 ∧ (p.1 ≠ 9 → p.1 ≠ 10 → SOH ∉ p.2.value)

def sampleMsg : FixMessage :=
  ((FixMessage.new.add_field ⟨8, [70, 73, 88, 46, 52, 46, 50]⟩).add_field
      ⟨9, [49, 48, 48]⟩).add_field ⟨35, [68]⟩

def wireSample : List Nat :=
  match encode sampleMsg with
  | .ok w => w
  | .error _ => []

def decodedSample : FixMessage :=
  match decodeFields wireSample with
  | .ok msg => msg
  | .error _ => with_capacity 16

end FixMessage

/-! ### Basic lemmas: memchr, byte sums, decimal rendering and parsing -/

theorem memchr_eq_none {c : Nat} {l : List Nat} (h : ∀ x ∈ l, x ≠ c) :
    memchr c l = none := by
  induction l with
  | nil => rfl
  | cons b bs ih =>
    simp only [memchr]
    rw [if_neg (h b (by simp)), ih (fun x hx => h x (by simp [hx]))]
    rfl

theorem memchr_lt {c : Nat} {l : List Nat} {i : Nat} (h : memchr c l = some i) :
    i < l.length := by
  induction l generalizing i with
  | nil => simp [memchr] at h
  | cons b bs ih =>
    simp only [memchr] at h
    split at h
    · cases h; simp
    · cases hm : memchr c bs with
      | none => rw [hm] at h; simp at h
      | some j =>
        rw [hm] at h
        simp only [Option.map_some'] at h
        cases h
        simpa using ih hm

theorem memchr_append {c : Nat} {a b : List Nat} (h : ∀ x ∈ a, x ≠ c) :
    memchr c (a ++ b) = (memchr c b).map (· + a.length) := by
  induction a with
  | nil => simp
  | cons x xs ih =>
    have hx : x ≠ c := h x (by simp)
    simp only [List.cons_append, memchr, List.append_eq, if_neg hx,
      ih (fun y hy => h y (by simp [hy]))]
    cases memchr c b with
    | none => simp
    | some j => simp; omega

theorem memchr_cons_self (c : Nat) (l : List Nat) :
    memchr c (c :: l) = some 0 := by
  rw [memchr, if_pos rfl]

theorem sumBytes_append (a b : List Nat) :
    sumBytes (a ++ b) = sumBytes a + sumBytes b := by
  induction a with
  | nil => simp [sumBytes]
  | cons x xs ih => simp [sumBytes, ih]; omega

@[simp] theorem decValAux_nil (a : Nat) : decValAux a [] = a := rfl

@[simp] theorem decValAux_cons (a b : Nat) (bs : List Nat) :
    decValAux a (b :: bs) = decValAux (a * 10 + (b - 48)) bs := rfl

theorem decValAux_append (a : Nat) (x y : List Nat) :
    decValAux a (x ++ y) = decValAux (decValAux a x) y := by
  induction x generalizing a with
  | nil => rfl
  | cons b bs ih => exact ih (a * 10 + (b - 48))

theorem decValAux_replicate_zero (k : Nat) :
    decValAux 0 (List.replicate k 48) = 0 := by
  induction k with
  | zero => rfl
  | succ n ih => rw [List.replicate_succ]; exact ih

theorem natDecAux_zero (fuel : Nat) : natDecAux fuel 0 = [] := by
  cases fuel <;> rfl

theorem natDecAux_all_digits (fuel n : Nat) :
    ∀ b ∈ natDecAux fuel n, isDigit b = true := by
  induction fuel generalizing n with
  | zero => simp [natDecAux]
  | succ f ih =>
    intro b hb
    simp only [natDecAux] at hb
    split at hb
    · simp at hb
    · rcases List.mem_append.1 hb with h | h
      · exact ih _ b h
      · simp at h
        subst h
        have : n % 10 < 10 := Nat.mod_lt _ (by omega)
        simp [isDigit]
        omega

theorem decVal_natDecAux {fuel n : Nat} (h : n < 10 ^ fuel) :
    decValAux 0 (natDecAux fuel n) = n := by
  induction fuel generalizing n with
  | zero =>
    have hn : n = 0 := by simpa using h
    subst hn; rfl
  | succ f ih =>
    simp only [natDecAux]
    split
    · next h0 => subst h0; rfl
    · rw [decValAux_append]
      have hdiv : n / 10 < 10 ^ f := by
        rw [Nat.div_lt_iff_lt_mul (by omega)]
        calc n < 10 ^ (f + 1) := h
        _ = 10 ^ f * 10 := by ring
      rw [ih hdiv]
      simp only [decValAux_cons, decValAux_nil]
      omega

theorem natDecAux_length {fuel k n : Nat} (h : n < 10 ^ k) :
    (natDecAux fuel n).length ≤ k := by
  induction fuel generalizing k n with
  | zero => simp [natDecAux]
  | succ f ih =>
    simp only [natDecAux]
    split
    · simp
    · cases k with
      | zero => simp at h; omega
      | succ k' =>
        have hdiv : n / 10 < 10 ^ k' := by
          rw [Nat.div_lt_iff_lt_mul (by omega)]
          calc n < 10 ^ (k' + 1) := h
          _ = 10 ^ k' * 10 := by ring
        have := ih hdiv
        simp [List.length_append]
        omega

theorem natDecAux_ne_nil_head {fuel n : Nat} (hn : n ≠ 0) (h : n < 10 ^ fuel) :
    ∃ d t, natDecAux fuel n = d :: t ∧ d ≠ 48 := by
  induction fuel generalizing n with
  | zero => simp at h; omega
  | succ f ih =>
    simp only [natDecAux, if_neg hn]
    by_cases h10 : n < 10
    · have : n / 10 = 0 := Nat.div_eq_of_lt h10
      rw [this, natDecAux_zero]
      refine ⟨n % 10 + 48, [], by simp, ?_⟩
      have : n % 10 = n := Nat.mod_eq_of_lt h10
      omega
    · have hdiv0 : n / 10 ≠ 0 := by
        intro hc
        have := Nat.div_eq_of_lt (by omega : n < 10)
        omega
      have hdiv : n / 10 < 10 ^ f := by
        rw [Nat.div_lt_iff_lt_mul (by omega)]
        calc n < 10 ^ (f + 1) := h
        _ = 10 ^ f * 10 := by ring
      obtain ⟨d, t, heq, hd⟩ := ih hdiv0 hdiv
      exact ⟨d, t ++ [n % 10 + 48], by rw [heq]; simp, hd⟩

theorem lt_ten_pow_succ (n : Nat) : n < 10 ^ (n + 1) :=
  lt_of_lt_of_le (Nat.lt_pow_self (by omega) n) (Nat.pow_le_pow_right (by omega) (by omega))

theorem natDec_all_digits (n : Nat) : ∀ b ∈ natDec n, isDigit b = true := by
  unfold natDec
  split
  · intro b hb; simp at hb; subst hb; simp [isDigit]
  · exact natDecAux_all_digits _ _

theorem decVal_natDec (n : Nat) : decValAux 0 (natDec n) = n := by
  unfold natDec
  split
  · next h0 => subst h0; rfl
  · exact decVal_natDecAux (lt_ten_pow_succ n)

theorem natDec_ne_nil (n : Nat) : natDec n ≠ [] := by
  unfold natDec
  split
  · simp
  · obtain ⟨d, t, heq, _⟩ := natDecAux_ne_nil_head (by assumption) (lt_ten_pow_succ n)
    simp [heq]

theorem natDec_head_ne_zero {n : Nat} (hn : n ≠ 0) :
    ∀ d, (natDec n).head? = some d → d ≠ 48 := by
  unfold natDec
  rw [if_neg hn]
  obtain ⟨d, t, heq, hd⟩ := natDecAux_ne_nil_head hn (lt_ten_pow_succ n)
  rw [heq]
  intro d' hd'
  simp at hd'
  omega

theorem natDec_length_le {n k : Nat} (h : n < 10 ^ k) (hk : 1 ≤ k) :
    (natDec n).length ≤ k := by
  unfold natDec
  split
  · simpa using hk
  · exact natDecAux_length h

/-! ### parseU32 and pad3 lemmas -/

theorem isDigit_bounds {b : Nat} (h : isDigit b = true) : 48 ≤ b ∧ b ≤ 57 := by
  simpa [isDigit] using h

theorem parseU32_of_digits {t : List Nat} (hne : t ≠ [])
    (hd : ∀ b ∈ t, isDigit b = true) (hv : decValAux 0 t < 2 ^ 32) :
    parseU32 t = some (decValAux 0 t) := by
  cases t with
  | nil => exact absurd rfl hne
  | cons b bs =>
    have hb : isDigit b = true := hd b (by simp)
    have hb43 : b ≠ 43 := by
      have := isDigit_bounds hb
      omega
    unfold parseU32
    simp only [if_neg hb43]
    rw [if_pos, if_pos hv]
    simp only [Bool.and_eq_true, List.all_eq_true, List.isEmpty_cons,
      Bool.not_false, true_and]
    exact hd

theorem parseU32_natDec {n : Nat} (h : n < 2 ^ 32) :
    parseU32 (natDec n) = some n := by
  rw [parseU32_of_digits (natDec_ne_nil n) (natDec_all_digits n)
    (by rw [decVal_natDec]; exact h), decVal_natDec]

theorem pad3_all_digits (n : Nat) : ∀ b ∈ pad3 n, isDigit b = true := by
  intro b hb
  rcases List.mem_append.1 hb with h | h
  · have := List.eq_of_mem_replicate h
    subst this
    simp [isDigit]
  · exact natDec_all_digits n b h

theorem pad3_ne_nil (n : Nat) : pad3 n ≠ [] := by
  unfold pad3
  intro h
  rcases List.append_eq_nil.1 h with ⟨_, h2⟩
  exact natDec_ne_nil n h2

theorem decVal_pad3 (n : Nat) : decValAux 0 (pad3 n) = n := by
  unfold pad3
  rw [decValAux_append, decValAux_replicate_zero, decVal_natDec]

theorem parseU32_pad3 {n : Nat} (h : n < 2 ^ 32) :
    parseU32 (pad3 n) = some n := by
  rw [parseU32_of_digits (pad3_ne_nil n) (pad3_all_digits n)
    (by rw [decVal_pad3]; exact h), decVal_pad3]

theorem pad3_length {n : Nat} (h : n < 1000) : (pad3 n).length = 3 := by
  unfold pad3
  have h3 : (natDec n).length ≤ 3 :=
    natDec_length_le (by norm_num at h ⊢; omega) (by omega)
  simp [List.length_append, List.length_replicate]
  omega

theorem parseU32_ne_nil {s : List Nat} {v : Nat} (h : parseU32 s = some v) :
    s ≠ [] := by
  intro he
  subst he
  simp [parseU32] at h

theorem parseU32_single_lt_ten {b v : Nat} (h : parseU32 [b] = some v) :
    v < 10 := by
  unfold parseU32 at h
  by_cases hb : b = 43
  · simp [hb] at h
  · simp only [if_neg hb] at h
    split at h
    · next hcond =>
      simp only [Bool.and_eq_true, List.all_eq_true] at hcond
      have hb' := isDigit_bounds (hcond.2 b (by simp))
      split at h
      · cases h
        simp only [decValAux_cons, decValAux_nil]
        omega
      · cases h
    · cases h

theorem parseU32_length_two {s : List Nat} {v : Nat}
    (h : parseU32 s = some v) (hv : 10 ≤ v) : 2 ≤ s.length := by
  match s with
  | [] => exact absurd h (by simp [parseU32])
  | [b] => have := parseU32_single_lt_ten h; omega
  | a :: b :: t => simp

/-! ### Map and message lemmas -/

theorem mapGet_nil (k : Nat) : mapGet [] k = none := rfl

theorem mapGet_cons (p : Nat × FixField) (fs : List (Nat × FixField)) (k : Nat) :
    mapGet (p :: fs) k = if p.1 = k then some p.2 else mapGet fs k := by
  unfold mapGet
  by_cases h : p.1 = k
  · rw [List.find?_cons_of_pos _ (by simpa using h), if_pos h]
    rfl
  · rw [List.find?_cons_of_neg _ (by simpa using h), if_neg h]

theorem mapGet_isSome_iff (fs : List (Nat × FixField)) (k : Nat) :
    (mapGet fs k).isSome = true ↔ k ∈ fs.map Prod.fst := by
  induction fs with
  | nil => simp [mapGet_nil]
  | cons p rest ih =>
    rw [mapGet_cons]
    by_cases h : p.1 = k
    · simp [h]
    · simp only [if_neg h, ih, List.map_cons, List.mem_cons]
      constructor
      · exact Or.inr
      · rintro (hc | hc)
        · exact absurd hc.symm h
        · exact hc

theorem mapInsert_keys (fs : List (Nat × FixField)) (k : Nat) (v : FixField) :
    (mapInsert fs k v).map Prod.fst =
      if fs.any (fun p => p.1 = k) then fs.map Prod.fst
      else fs.map Prod.fst ++ [k] := by
  unfold mapInsert
  split
  · rw [List.map_map]
    congr 1
    funext p
    by_cases hp : p.1 = k
    · simp [hp]
    · simp [hp]
  · simp

theorem mapGet_overwrite_self (k : Nat) (v : FixField) :
    ∀ fs : List (Nat × FixField), fs.any (fun p => p.1 = k) = true →
      mapGet (fs.map (fun p => if p.1 = k then (k, v) else p)) k = some v := by
  intro fs
  induction fs with
  | nil => intro h; simp at h
  | cons p rest ih =>
    intro h
    by_cases hp : p.1 = k
    · simp only [List.map_cons, if_pos hp]
      rw [mapGet_cons, if_pos rfl]
    · simp only [List.any_cons, Bool.or_eq_true, decide_eq_true_eq] at h
      rcases h with h | h
      · exact absurd h hp
      · simp only [List.map_cons, if_neg hp]
        rw [mapGet_cons, if_neg hp]
        exact ih h

theorem mapGet_overwrite_ne {k k' : Nat} (h : k' ≠ k) (v : FixField) :
    ∀ fs : List (Nat × FixField),
      mapGet (fs.map (fun p => if p.1 = k then (k, v) else p)) k' = mapGet fs k' := by
  intro fs
  induction fs with
  | nil => rfl
  | cons p rest ih =>
    simp only [List.map_cons]
    by_cases hp : p.1 = k
    · rw [if_pos hp, mapGet_cons, mapGet_cons,
        if_neg (show ¬((k, v).1 = k') from fun hc => h hc.symm),
        if_neg (show ¬(p.1 = k') from fun hc => h (hp ▸ hc).symm)]
      exact ih
    · rw [if_neg hp, mapGet_cons, mapGet_cons]
      by_cases hk' : p.1 = k'
      · rw [if_pos hk', if_pos hk']
      · rw [if_neg hk', if_neg hk']
        exact ih

theorem mapGet_append_single_self (k : Nat) (v : FixField) :
    ∀ fs : List (Nat × FixField), fs.any (fun p => p.1 = k) = false →
      mapGet (fs ++ [(k, v)]) k = some v := by
  intro fs
  induction fs with
  | nil =>
    intro _
    rw [List.nil_append, mapGet_cons, if_pos rfl]
  | cons p rest ih =>
    intro h
    simp only [List.any_cons, Bool.or_eq_false_iff, decide_eq_false_iff_not] at h
    rw [List.cons_append, mapGet_cons, if_neg h.1]
    exact ih (by simpa using h.2)

theorem mapGet_append_single_ne {k k' : Nat} (h : k' ≠ k) (v : FixField) :
    ∀ fs : List (Nat × FixField),
      mapGet (fs ++ [(k, v)]) k' = mapGet fs k' := by
  intro fs
  induction fs with
  | nil =>
    rw [List.nil_append, mapGet_cons,
      if_neg (show ¬((k, v).1 = k') from fun hc => h hc.symm)]
  | cons p rest ih =>
    rw [List.cons_append, mapGet_cons, mapGet_cons]
    split
    · rfl
    · exact ih

theorem mapGet_insert_self (fs : List (Nat × FixField)) (k : Nat) (v : FixField) :
    mapGet (mapInsert fs k v) k = some v := by
  unfold mapInsert
  split
  · next h => exact mapGet_overwrite_self k v fs h
  · next h => exact mapGet_append_single_self k v fs (Bool.eq_false_iff.mpr h)

theorem mapGet_insert_ne (fs : List (Nat × FixField)) {k k' : Nat}
    (h : k' ≠ k) (v : FixField) :
    mapGet (mapInsert fs k v) k' = mapGet fs k' := by
  unfold mapInsert
  split
  · exact mapGet_overwrite_ne h v fs
  · exact mapGet_append_single_ne h v fs

namespace FixMessage

theorem get_field_add (m : FixMessage) (f : FixField) (t : Nat) :
    (m.add_field f).get_field t =
      if t = f.tag then some f else m.get_field t := by
  unfold add_field get_field
  split
  · next h => subst h; exact mapGet_insert_self _ _ _
  · next h => exact mapGet_insert_ne _ h _

theorem get_field_empty (t : Nat) : (with_capacity 16).get_field t = none := rfl

end FixMessage

/-! ### List splitting helpers -/

theorem take_append_len (a b : List Nat) : (a ++ b).take a.length = a := by
  simp

theorem drop_append_len (a b : List Nat) : (a ++ b).drop a.length = b := by
  simp

theorem drop_append_len_succ (a : List Nat) (c : Nat) (b : List Nat) :
    (a ++ c :: b).drop (a.length + 1) = b := by
  have : a ++ c :: b = (a ++ [c]) ++ b := by simp
  rw [this]
  have hl : (a ++ [c]).length = a.length + 1 := by simp
  rw [← hl, drop_append_len]

/-! ### Equation and span lemmas for the scanning loop -/

namespace FixMessage

theorem scanFieldsAux_nil (fuel : Nat) (msg : FixMessage) :
    scanFieldsAux fuel [] msg = .ok msg := by
  cases fuel <;> rfl

theorem scanFieldsAux_cons_succ (fuel b : Nat) (rest : List Nat) (msg : FixMessage) :
    scanFieldsAux (fuel + 1) (b :: rest) msg =
      match memchr SOH (b :: rest) with
      | none => .error .InvalidFormat
      | some field_end =>
        match memchr EQUALS ((b :: rest).take field_end) with
        | none => scanFieldsAux fuel ((b :: rest).drop (field_end + 1)) msg
        | some equals_pos =>
          match parseU32 (((b :: rest).take field_end).take equals_pos) with
          | none => .error .InvalidFormat
          | some tag =>
            scanFieldsAux fuel ((b :: rest).drop (field_end + 1))
              (msg.add_field ⟨tag, ((b :: rest).take field_end).drop (equals_pos + 1)⟩) :=
  rfl

theorem drop_len_le (b : Nat) (rest : List Nat) (i : Nat) :
    ((b :: rest).drop (i + 1)).length ≤ rest.length := by
  rw [List.length_drop, List.length_cons]
  omega

theorem scanFieldsAux_fuel :
    ∀ (fuel fuel' : Nat) (data : List Nat) (msg : FixMessage),
      data.length ≤ fuel → data.length ≤ fuel' →
      scanFieldsAux fuel data msg = scanFieldsAux fuel' data msg := by
  intro fuel
  induction fuel with
  | zero =>
    intro fuel' data msg h _
    have hd : data = [] := List.eq_nil_of_length_eq_zero (Nat.le_zero.1 h)
    subst hd
    rw [scanFieldsAux_nil, scanFieldsAux_nil]
  | succ f ih =>
    intro fuel' data msg h h'
    cases data with
    | nil => rw [scanFieldsAux_nil, scanFieldsAux_nil]
    | cons b rest =>
      cases fuel' with
      | zero => simp at h'
      | succ f' =>
        rw [scanFieldsAux_cons_succ, scanFieldsAux_cons_succ]
        cases hm : memchr SOH (b :: rest) with
        | none => rfl
        | some i =>
          simp only
          have hlf : ((b :: rest).drop (i + 1)).length ≤ f := by
            have := drop_len_le b rest i
            simp at h
            omega
          have hlf' : ((b :: rest).drop (i + 1)).length ≤ f' := by
            have := drop_len_le b rest i
            simp at h'
            omega
          cases he : memchr EQUALS ((b :: rest).take i) with
          | none => exact ih f' _ _ hlf hlf'
          | some j =>
            simp only
            cases hp : parseU32 (((b :: rest).take i).take j) with
            | none => rfl
            | some tag => exact ih f' _ _ hlf hlf'

theorem scanFields_nil (msg : FixMessage) : scanFields [] msg = .ok msg := rfl

theorem scanFields_cons (b : Nat) (rest : List Nat) (msg : FixMessage) :
    scanFields (b :: rest) msg =
      match memchr SOH (b :: rest) with
      | none => .error .InvalidFormat
      | some field_end =>
        match memchr EQUALS ((b :: rest).take field_end) with
        | none => scanFields ((b :: rest).drop (field_end + 1)) msg
        | some equals_pos =>
          match parseU32 (((b :: rest).take field_end).take equals_pos) with
          | none => .error .InvalidFormat
          | some tag =>
            scanFields ((b :: rest).drop (field_end + 1))
              (msg.add_field ⟨tag, ((b :: rest).take field_end).drop (equals_pos + 1)⟩) := by
  show scanFieldsAux (b :: rest).length (b :: rest) msg = _
  rw [List.length_cons, scanFieldsAux_cons_succ]
  cases hm : memchr SOH (b :: rest) with
  | none => rfl
  | some i =>
    simp only
    cases he : memchr EQUALS ((b :: rest).take i) with
    | none =>
      exact scanFieldsAux_fuel _ _ _ _ (drop_len_le b rest i) (le_refl _)
    | some j =>
      simp only
      cases hp : parseU32 (((b :: rest).take i).take j) with
      | none => rfl
      | some tag =>
        exact scanFieldsAux_fuel _ _ _ _ (drop_len_le b rest i) (le_refl _)

theorem scanFields_step {data : List Nat} (hne : data ≠ []) {i : Nat}
    (hm : memchr SOH data = some i) (msg : FixMessage) :
    scanFields data msg =
      match memchr EQUALS (data.take i) with
      | none => scanFields (data.drop (i + 1)) msg
      | some equals_pos =>
        match parseU32 ((data.take i).take equals_pos) with
        | none => .error .InvalidFormat
        | some tag =>
          scanFields (data.drop (i + 1))
            (msg.add_field ⟨tag, (data.take i).drop (equals_pos + 1)⟩) := by
  cases data with
  | nil => exact absurd rfl hne
  | cons b rest => rw [scanFields_cons, hm]


theorem soh_not_in_span {f : FixField} (hf : FieldOk f) :
    ∀ x ∈ natDec f.tag ++ [EQUALS] ++ f.value, x ≠ SOH := by
  intro x hx
  simp only [List.append_assoc, List.mem_append, List.mem_singleton] at hx
  rcases hx with h | h | h
  · have := isDigit_bounds (natDec_all_digits _ x h)
    simp [SOH]
    omega
  · subst h; simp [EQUALS, SOH]
  · exact fun hc => hf.2 (hc ▸ h)

theorem memchr_soh_span {f : FixField} (hf : FieldOk f) (rest : List Nat) :
    memchr SOH (fieldEncode f ++ rest) =
      some ((natDec f.tag).length + 1 + f.value.length) := by
  unfold fieldEncode
  have : natDec f.tag ++ [EQUALS] ++ f.value ++ [SOH] ++ rest =
      (natDec f.tag ++ [EQUALS] ++ f.value) ++ (SOH :: rest) := by simp
  rw [this, memchr_append (soh_not_in_span hf), memchr_cons_self]
  simp [List.length_append]
  omega

theorem memchr_equals_tag (f : FixField) :
    memchr EQUALS (natDec f.tag ++ [EQUALS] ++ f.value) =
      some (natDec f.tag).length := by
  have hd : ∀ x ∈ natDec f.tag, x ≠ EQUALS := by
    intro x hx
    have := isDigit_bounds (natDec_all_digits _ x hx)
    simp [EQUALS]
    omega
  rw [List.append_assoc, List.singleton_append, memchr_append hd, memchr_cons_self]
  simp

/-- Scanning a buffer that starts with one well-formed encoded field adds
exactly that field and continues with the remainder. -/
theorem scan_field_step {f : FixField} (hf : FieldOk f) (rest : List Nat)
    (msg : FixMessage) :
    scanFields (fieldEncode f ++ rest) msg = scanFields rest (msg.add_field f) := by
  have hne : fieldEncode f ++ rest ≠ [] := by
    simp [fieldEncode]
  rw [scanFields_step hne (memchr_soh_span hf rest) msg]
  have hsplit : fieldEncode f ++ rest =
      (natDec f.tag ++ [EQUALS] ++ f.value) ++ (SOH :: rest) := by
    simp [fieldEncode]
  have hlen : (natDec f.tag ++ [EQUALS] ++ f.value).length =
      (natDec f.tag).length + 1 + f.value.length := by
    simp [List.length_append]
    omega
  have htake : (fieldEncode f ++ rest).take ((natDec f.tag).length + 1 + f.value.length) =
      natDec f.tag ++ [EQUALS] ++ f.value := by
    rw [hsplit, ← hlen, take_append_len]
  have hdrop : (fieldEncode f ++ rest).drop ((natDec f.tag).length + 1 + f.value.length + 1) =
      rest := by
    rw [hsplit, ← hlen, drop_append_len_succ]
  have htag : (natDec f.tag ++ [EQUALS] ++ f.value).take (natDec f.tag).length =
      natDec f.tag := by
    rw [List.append_assoc, take_append_len]
  have hval : (natDec f.tag ++ [EQUALS] ++ f.value).drop ((natDec f.tag).length + 1) =
      f.value := by
    rw [List.append_assoc, List.singleton_append, drop_append_len_succ]
  rw [htake, hdrop]
  simp only [memchr_equals_tag f, htag, hval, parseU32_natDec hf.1]

theorem extract_field_encoded {data : List Nat} {pos : Nat} {f : FixField}
    (hf : FieldOk f) {rest : List Nat}
    (hdata : data.drop pos = fieldEncode f ++ rest) (msg : FixMessage) :
    extract_field data pos f.tag msg =
      .ok (pos + ((natDec f.tag).length + 1 + f.value.length) + 1, msg.add_field f) := by
  unfold extract_field
  rw [hdata, memchr_soh_span hf rest]
  have hsplit : fieldEncode f ++ rest =
      (natDec f.tag ++ [EQUALS] ++ f.value) ++ (SOH :: rest) := by
    simp [fieldEncode]
  have hlen : (natDec f.tag ++ [EQUALS] ++ f.value).length =
      (natDec f.tag).length + 1 + f.value.length := by
    simp [List.length_append]
    omega
  have htake : (fieldEncode f ++ rest).take ((natDec f.tag).length + 1 + f.value.length) =
      natDec f.tag ++ [EQUALS] ++ f.value := by
    rw [hsplit, ← hlen, take_append_len]
  have htag : (natDec f.tag ++ [EQUALS] ++ f.value).take (natDec f.tag).length =
      natDec f.tag := by
    rw [List.append_assoc, take_append_len]
  have hval : (natDec f.tag ++ [EQUALS] ++ f.value).drop ((natDec f.tag).length + 1) =
      f.value := by
    rw [List.append_assoc, List.singleton_append, drop_append_len_succ]
  simp only [htake, memchr_equals_tag f, htag, hval, parseU32_natDec hf.1]
  simp

theorem extract_field_error {data : List Nat} {pos expected : Nat}
    {msg : FixMessage} {e : FixError}
    (h : extract_field data pos expected msg = .error e) : e = .InvalidFormat := by
  unfold extract_field at h
  split at h
  · cases h; rfl
  · split at h
    · cases h; rfl
    · split at h
      · cases h; rfl
      · split at h
        · cases h; rfl
        · cases h

theorem extract_field_le {data : List Nat} {pos expected : Nat}
    {msg : FixMessage} {pos' : Nat} {msg' : FixMessage}
    (h : extract_field data pos expected msg = .ok (pos', msg')) :
    pos' ≤ data.length ∧ pos < pos' := by
  unfold extract_field at h
  split at h
  · cases h
  · next i hm =>
    have hi : i < (data.drop pos).length := memchr_lt hm
    rw [List.length_drop] at hi
    split at h
    · cases h
    · split at h
      · cases h
      · split at h
        · cases h
        · cases h
          constructor
          · omega
          · omega

theorem scanFieldsAux_error :
    ∀ (fuel : Nat) (data : List Nat) (msg : FixMessage) {e : FixError},
      data.length ≤ fuel → scanFieldsAux fuel data msg = .error e →
      e = .InvalidFormat := by
  intro fuel
  induction fuel with
  | zero =>
    intro data msg e hlen h
    have hd : data = [] := List.eq_nil_of_length_eq_zero (Nat.le_zero.1 hlen)
    subst hd
    rw [scanFieldsAux_nil] at h
    cases h
  | succ f ih =>
    intro data msg e hlen h
    cases data with
    | nil => rw [scanFieldsAux_nil] at h; cases h
    | cons b rest =>
      rw [scanFieldsAux_cons_succ] at h
      have hlf : ∀ i, ((b :: rest).drop (i + 1)).length ≤ f := by
        intro i
        have := drop_len_le b rest i
        simp at hlen
        omega
      cases hm : memchr SOH (b :: rest) with
      | none =>
        simp only [hm, Except.error.injEq] at h
        exact h.symm
      | some i =>
        cases he : memchr EQUALS ((b :: rest).take i) with
        | none =>
          simp only [hm, he] at h
          exact ih _ _ (hlf i) h
        | some j =>
          cases hp : parseU32 (((b :: rest).take i).take j) with
          | none =>
            simp only [hm, he, hp, Except.error.injEq] at h
            exact h.symm
          | some tag =>
            simp only [hm, he, hp] at h
            exact ih _ _ (hlf i) h

theorem scanFields_error {data : List Nat} {msg : FixMessage} {e : FixError}
    (h : scanFields data msg = .error e) : e = .InvalidFormat :=
  scanFieldsAux_error data.length data msg (le_refl _) h

/-! ### The reachable-message invariant -/

theorem any_key_iff (fs : List (Nat × FixField)) (k : Nat) :
    fs.any (fun p => p.1 = k) = true ↔ k ∈ fs.map Prod.fst := by
  rw [List.any_eq_true]
  simp only [decide_eq_true_eq, List.mem_map]


theorem wf_with_capacity (c : Nat) : Wf (with_capacity c) := by
  refine ⟨by simp [with_capacity], fun t => by simp [with_capacity], ?_⟩
  intro p hp
  simp [with_capacity] at hp

theorem wf_new : Wf new := wf_with_capacity 16

theorem wf_add {m : FixMessage} (f : FixField) (h : Wf m) : Wf (m.add_field f) := by
  obtain ⟨hnd, hmem, htags⟩ := h
  unfold add_field
  by_cases hany : m.fields.any (fun p => p.1 = f.tag) = true
  · have hkeys : (mapInsert m.fields f.tag f).map Prod.fst = m.fields.map Prod.fst := by
      rw [mapInsert_keys, if_pos hany]
    refine ⟨by rw [hkeys]; exact hnd, ?_, ?_⟩
    · intro t
      rw [hkeys]
      simp only [List.mem_append, List.mem_singleton]
      constructor
      · intro ht
        exact Or.inl ((hmem t).1 ht)
      · rintro (ht | ht)
        · exact (hmem t).2 ht
        · subst ht
          exact (any_key_iff _ _).1 hany
    · intro p hp
      unfold mapInsert at hp
      rw [if_pos hany] at hp
      rcases List.mem_map.1 hp with ⟨q, hq, rfl⟩
      by_cases hqt : q.1 = f.tag
      · simp only [if_pos hqt]
      · simp only [if_neg hqt]
        exact htags q hq
  · have hkeys : (mapInsert m.fields f.tag f).map Prod.fst =
        m.fields.map Prod.fst ++ [f.tag] := by
      rw [mapInsert_keys, if_neg hany]
    have hnotin : f.tag ∉ m.fields.map Prod.fst := fun hc =>
      hany ((any_key_iff _ _).2 hc)
    refine ⟨?_, ?_, ?_⟩
    · rw [hkeys, List.nodup_append]
      exact ⟨hnd, by simp, by
        intro a ha hb
        simp only [List.mem_singleton] at hb
        subst hb
        exact hnotin ha⟩
    · intro t
      rw [hkeys]
      simp only [List.mem_append, List.mem_singleton]
      exact or_congr_left (hmem t)
    · intro p hp
      unfold mapInsert at hp
      rw [if_neg hany] at hp
      rcases List.mem_append.1 hp with hp | hp
      · exact htags p hp
      · simp only [List.mem_singleton] at hp
        subst hp
        rfl

theorem extract_field_wf {data : List Nat} {pos expected : Nat}
    {msg : FixMessage} {pos' : Nat} {msg' : FixMessage}
    (h : extract_field data pos expected msg = .ok (pos', msg'))
    (hw : Wf msg) : Wf msg' := by
  unfold extract_field at h
  split at h
  · cases h
  · split at h
    · cases h
    · split at h
      · cases h
      · split at h
        · cases h
        · cases h
          exact wf_add _ hw

theorem scanFieldsAux_wf :
    ∀ (fuel : Nat) (data : List Nat) (msg : FixMessage) {msg' : FixMessage},
      scanFieldsAux fuel data msg = .ok msg' → Wf msg → Wf msg' := by
  intro fuel
  induction fuel with
  | zero =>
    intro data msg msg' h hw
    cases data with
    | nil => rw [scanFieldsAux_nil] at h; cases h; exact hw
    | cons b rest => cases h
  | succ f ih =>
    intro data msg msg' h hw
    cases data with
    | nil => rw [scanFieldsAux_nil] at h; cases h; exact hw
    | cons b rest =>
      rw [scanFieldsAux_cons_succ] at h
      cases hm : memchr SOH (b :: rest) with
      | none => simp only [hm] at h; cases h
      | some i =>
        cases he : memchr EQUALS ((b :: rest).take i) with
        | none =>
          simp only [hm, he] at h
          exact ih _ _ h hw
        | some j =>
          cases hp : parseU32 (((b :: rest).take i).take j) with
          | none => simp only [hm, he, hp] at h; cases h
          | some tag =>
            simp only [hm, he, hp] at h
            exact ih _ _ h (wf_add _ hw)

theorem scanFields_wf {data : List Nat} {msg msg' : FixMessage}
    (h : scanFields data msg = .ok msg') (hw : Wf msg) : Wf msg' :=
  scanFieldsAux_wf data.length data msg h hw

theorem decodeFields_wf {data : List Nat} {msg : FixMessage}
    (h : decodeFields data = .ok msg) : Wf msg := by
  unfold decodeFields at h
  split at h
  · cases h
  · next pr1 heq1 =>
    obtain ⟨pos1, m1⟩ := pr1
    split at h
    · cases h
    · next pr2 heq2 =>
      obtain ⟨pos2, m2⟩ := pr2
      split at h
      · cases h
      · next pr3 heq3 =>
        obtain ⟨pos3, m3⟩ := pr3
        exact scanFields_wf h
          (extract_field_wf heq3 (extract_field_wf heq2
            (extract_field_wf heq1 (wf_with_capacity 16))))

theorem decode_wf {data : List Nat} {msg : FixMessage}
    (h : decode data = .ok msg) : Wf msg := by
  unfold decode at h
  split at h
  · cases h
  · next msg0 heq =>
    split at h
    · cases h
    · split at h
      · cases h
      · split at h
        · cases h
        · cases h
          exact decodeFields_wf heq


theorem reachable_wf {m : FixMessage} (h : Reachable m) : Wf m := by
  induction h with
  | new => exact wf_new
  | with_capacity c => exact wf_with_capacity c
  | add f _ ih => exact wf_add f ih
  | decoded hd => exact decode_wf hd

end FixMessage

namespace FixMessage


theorem get_field_mem_entry {m : FixMessage} {t : Nat} {f : FixField}
    (h : m.get_field t = some f) : (t, f) ∈ m.fields := by
  unfold get_field mapGet at h
  cases hf : m.fields.find? (fun p => p.1 = t) with
  | none => rw [hf] at h; cases h
  | some p =>
    rw [hf] at h
    simp only [Option.map_some'] at h
    have hp1 : p.1 = t := by simpa using List.find?_some hf
    have hmem := List.mem_of_find?_eq_some hf
    have : p = (t, f) := by
      cases p
      cases h
      simp_all
    rw [← this]
    exact hmem

theorem wf_get_tag {m : FixMessage} (hw : Wf m) {t : Nat} {f : FixField}
    (h : m.get_field t = some f) : f.tag = t :=
  hw.2.2 (t, f) (get_field_mem_entry h)

theorem get_FieldOk {m : FixMessage} (hw : Wf m) (hok : MsgOk m) {t : Nat}
    {f : FixField} (h : m.get_field t = some f) : FieldOk f ∧ f.tag = t := by
  have hmem := get_field_mem_entry h
  have htag := wf_get_tag hw h
  obtain ⟨h1, h2⟩ := hok (t, f) hmem
  exact ⟨⟨htag ▸ h1, h2⟩, htag⟩

theorem get_FieldOk_body {m : FixMessage} (hw : Wf m) (hok : MsgOkBody m)
    {t : Nat} {f : FixField} (h : m.get_field t = some f)
    (h9 : t ≠ 9) (h10 : t ≠ 10) : FieldOk f ∧ f.tag = t := by
  have hmem := get_field_mem_entry h
  have htag := wf_get_tag hw h
  obtain ⟨h1, h2⟩ := hok (t, f) hmem
  exact ⟨⟨htag ▸ h1, h2 h9 h10⟩, htag⟩

theorem wf_get_isSome {m : FixMessage} (hw : Wf m) {t : Nat}
    (h : t ∈ m.field_order) : (m.get_field t).isSome = true := by
  unfold get_field
  rw [mapGet_isSome_iff]
  exact (hw.2.1 t).2 h

theorem wf_get_none {m : FixMessage} (hw : Wf m) {t : Nat}
    (h : t ∉ m.field_order) : m.get_field t = none := by
  cases hg : m.get_field t with
  | none => rfl
  | some f =>
    exfalso
    apply h
    apply (hw.2.1 t).1
    rw [← mapGet_isSome_iff]
    unfold get_field at hg
    rw [hg]
    rfl

theorem sizeFields_ok {m : FixMessage} :
    ∀ {ord : List Nat}, (∀ t ∈ ord, (m.get_field t).isSome = true) →
      ∃ n, sizeFields m ord = .ok n := by
  intro ord
  induction ord with
  | nil => exact fun _ => ⟨0, rfl⟩
  | cons t rest ih =>
    intro h
    have ht := h t (by simp)
    obtain ⟨r, hr⟩ := ih (fun s hs => h s (by simp [hs]))
    unfold sizeFields
    split
    · obtain ⟨f, hf⟩ := Option.isSome_iff_exists.1 ht
      rw [hf, hr]
      exact ⟨f.encoded_len + r, rfl⟩
    · rw [hr]
      exact ⟨r, rfl⟩

theorem encodeBodyFields_eq {m : FixMessage} :
    ∀ {ord : List Nat}, (∀ t ∈ ord, (m.get_field t).isSome = true) →
      encodeBodyFields m ord = .ok ((bodyTagFields m ord).map fieldEncode).flatten := by
  intro ord
  induction ord with
  | nil => exact fun _ => rfl
  | cons t rest ih =>
    intro h
    have ht := h t (by simp)
    have hrest := ih (fun s hs => h s (by simp [hs]))
    unfold encodeBodyFields bodyTagFields
    split
    · obtain ⟨f, hf⟩ := Option.isSome_iff_exists.1 ht
      rw [show m.encode_field t = .ok (fieldEncode f) by unfold encode_field; rw [hf]]
      rw [hrest, hf]
      simp
    · exact hrest

theorem calculate_message_size_ok {m : FixMessage} (hw : Wf m) {f8 : FixField}
    (h8 : m.get_field 8 = some f8) :
    ∃ n, m.calculate_message_size = .ok n := by
  obtain ⟨r, hr⟩ := @sizeFields_ok m m.field_order
    (fun t ht => wf_get_isSome hw ((hw.2.1 t).1 ((hw.2.1 t).2 ht)))
  · unfold calculate_message_size
    rw [h8, hr]
    exact ⟨f8.encoded_len + (2 + 10 + 1) + r + 7, rfl⟩

end FixMessage

namespace FixMessage

theorem foldl_add_get_notag :
    ∀ (fs : List FixField) (msg : FixMessage) {t : Nat},
      (∀ g ∈ fs, g.tag ≠ t) →
      (fs.foldl add_field msg).get_field t = msg.get_field t := by
  intro fs
  induction fs with
  | nil => intro msg t _; rfl
  | cons g rest ih =>
    intro msg t h
    rw [List.foldl_cons, ih _ (fun x hx => h x (by simp [hx])),
      get_field_add, if_neg (fun hc => h g (by simp) hc.symm)]

theorem foldl_add_get_const :
    ∀ (fs : List FixField) (msg : FixMessage) {t : Nat} {f : FixField},
      f.tag = t → (∀ g ∈ fs, g.tag = t → g = f) → f ∈ fs →
      (fs.foldl add_field msg).get_field t = some f := by
  intro fs
  induction fs with
  | nil => intro msg t f _ _ hmem; simp at hmem
  | cons g rest ih =>
    intro msg t f htag hconst hmem
    by_cases hfr : f ∈ rest
    · rw [List.foldl_cons]
      exact ih _ htag (fun x hx => hconst x (by simp [hx])) hfr
    · have hfg : f = g := by
        rcases List.mem_cons.1 hmem with h | h
        · exact h
        · exact absurd h hfr
      subst hfg
      have hnone : ∀ x ∈ rest, x.tag ≠ t := by
        intro x hx hc
        have := hconst x (by simp [hx]) hc
        exact hfr (this ▸ hx)
      rw [List.foldl_cons, foldl_add_get_notag rest _ hnone,
        get_field_add, if_pos htag.symm]

theorem bodyTagFields_sound {m : FixMessage} :
    ∀ {ord : List Nat} {g : FixField}, g ∈ bodyTagFields m ord →
      ∃ s, s ∈ ord ∧ (s ≠ 8 ∧ s ≠ 9 ∧ s ≠ 35 ∧ s ≠ 10) ∧ m.get_field s = some g := by
  intro ord
  induction ord with
  | nil => intro g h; simp [bodyTagFields] at h
  | cons t rest ih =>
    intro g h
    unfold bodyTagFields at h
    split at h
    · next hcond =>
      simp only [Bool.and_eq_true, ne_eq, decide_not, Bool.not_eq_true',
        decide_eq_false_iff_not] at hcond
      rcases List.mem_append.1 h with h | h
      · cases hg : m.get_field t with
        | none => rw [hg] at h; simp at h
        | some f =>
          rw [hg] at h
          simp only [List.mem_singleton] at h
          subst h
          obtain ⟨⟨⟨ha, hb⟩, hc⟩, hd⟩ := hcond
          exact ⟨t, by simp, ⟨ha, hb, hc, hd⟩, hg⟩
      · obtain ⟨s, hs, hc, hgs⟩ := ih h
        exact ⟨s, by simp [hs], hc, hgs⟩
    · obtain ⟨s, hs, hc, hgs⟩ := ih h
      exact ⟨s, by simp [hs], hc, hgs⟩

theorem bodyTagFields_complete {m : FixMessage} :
    ∀ {ord : List Nat} {t : Nat} {f : FixField}, t ∈ ord →
      t ≠ 8 → t ≠ 9 → t ≠ 35 → t ≠ 10 → m.get_field t = some f →
      f ∈ bodyTagFields m ord := by
  intro ord
  induction ord with
  | nil => intro t f h; simp at h
  | cons s rest ih =>
    intro t f hmem h8 h9 h35 h10 hget
    unfold bodyTagFields
    rcases List.mem_cons.1 hmem with rfl | hmem2
    · rw [if_pos (by simp [h8, h9, h35, h10]), hget]
      simp
    · split
      · exact List.mem_append.2 (Or.inr (ih hmem2 h8 h9 h35 h10 hget))
      · exact ih hmem2 h8 h9 h35 h10 hget

theorem scan_concat :
    ∀ (fs : List FixField), (∀ f ∈ fs, FieldOk f) →
      ∀ (rest : List Nat) (msg : FixMessage),
        scanFields ((fs.map fieldEncode).flatten ++ rest) msg =
          scanFields rest (fs.foldl add_field msg) := by
  intro fs
  induction fs with
  | nil => intro _ rest msg; simp
  | cons f fs' ih =>
    intro h rest msg
    rw [List.map_cons, List.flatten_cons, List.append_assoc,
      scan_field_step (h f (by simp)) _ msg,
      ih (fun x hx => h x (by simp [hx])), List.foldl_cons]


theorem encode_eq_wireOf {m : FixMessage} {f8 f35 : FixField} (hw : Wf m)
    (h8 : m.get_field 8 = some f8) (h35 : m.get_field 35 = some f35) :
    encode m = .ok (wireOf f8 f35 (bodyTagFields m m.field_order)) := by
  obtain ⟨n, hn⟩ := calculate_message_size_ok hw h8
  have hbody := @encodeBodyFields_eq m m.field_order
    (fun t ht => wf_get_isSome hw ht)
  have he8 : m.encode_field 8 = .ok (fieldEncode f8) := by
    unfold encode_field; rw [h8]
  have he35 : m.encode_field 35 = .ok (fieldEncode f35) := by
    unfold encode_field; rw [h35]
  unfold encode
  rw [hn, he8, he35, hbody]
  unfold wireOf wirePre checkOf bodyOf
  rfl

end FixMessage

theorem natDec_nine : natDec 9 = [57] := rfl

theorem natDec_ten : natDec 10 = [49, 48] := rfl

theorem soh_not_mem_natDec (n : Nat) : SOH ∉ natDec n := by
  intro h
  have := isDigit_bounds (natDec_all_digits n SOH h)
  simp [SOH] at this

theorem soh_not_mem_pad3 (n : Nat) : SOH ∉ pad3 n := by
  intro h
  have := isDigit_bounds (pad3_all_digits n SOH h)
  simp [SOH] at this

theorem fieldEncode_length (f : FixField) :
    (fieldEncode f).length = (natDec f.tag).length + 1 + f.value.length + 1 := by
  simp [fieldEncode]
  omega

namespace FixMessage

theorem fieldOk_len (L : Nat) : FieldOk ⟨9, natDec L⟩ :=
  ⟨by norm_num, soh_not_mem_natDec L⟩

theorem fieldOk_check (c : Nat) : FieldOk ⟨10, pad3 c⟩ :=
  ⟨by norm_num, soh_not_mem_pad3 c⟩

theorem drop_encoded {data : List Nat} {pos : Nat} {f : FixField} {rest : List Nat}
    (h : data.drop pos = fieldEncode f ++ rest) :
    data.drop (pos + ((natDec f.tag).length + 1 + f.value.length) + 1) = rest := by
  have h1 : pos + ((natDec f.tag).length + 1 + f.value.length) + 1 =
      pos + ((natDec f.tag).length + 1 + f.value.length + 1) := by omega
  rw [h1, ← List.drop_drop, h, ← fieldEncode_length, drop_append_len]

theorem wireOf_decomp (f8 f35 : FixField) (bfs : List FixField) :
    wireOf f8 f35 bfs =
      fieldEncode f8 ++
        (fieldEncode ⟨9, natDec (bodyOf f35 bfs).length⟩ ++
          (fieldEncode f35 ++
            ((bfs.map fieldEncode).flatten ++
              fieldEncode ⟨10, pad3 (checkOf f8 f35 bfs)⟩))) := by
  unfold wireOf wirePre bodyOf
  simp [fieldEncode, natDec_nine, natDec_ten, EQUALS, SOH]

theorem decodeFields_wireOf {f8 f35 : FixField} (hf8 : FieldOk f8)
    (h8t : f8.tag = 8) (hf35 : FieldOk f35) (h35t : f35.tag = 35)
    {bfs : List FixField} (hbfs : ∀ g ∈ bfs, FieldOk g) :
    decodeFields (wireOf f8 f35 bfs) =
      .ok (decodedOf f8 f35 bfs) := by
  have hd0 : (wireOf f8 f35 bfs).drop 0 =
      fieldEncode f8 ++
        (fieldEncode ⟨9, natDec (bodyOf f35 bfs).length⟩ ++
          (fieldEncode f35 ++
            ((bfs.map fieldEncode).flatten ++
              fieldEncode ⟨10, pad3 (checkOf f8 f35 bfs)⟩))) := by
    rw [List.drop_zero]
    exact wireOf_decomp f8 f35 bfs
  have e1 := extract_field_encoded hf8 hd0 (with_capacity 16)
  rw [h8t] at e1
  have hd1 := drop_encoded hd0
  rw [h8t] at hd1
  have h9t : (⟨9, natDec (bodyOf f35 bfs).length⟩ : FixField).tag = 9 := rfl
  have e2 := extract_field_encoded (fieldOk_len (bodyOf f35 bfs).length) hd1
    ((with_capacity 16).add_field f8)
  rw [h9t] at e2
  have hd2 := drop_encoded hd1
  rw [h9t] at hd2
  have e3 := extract_field_encoded hf35 hd2
    (((with_capacity 16).add_field f8).add_field ⟨9, natDec (bodyOf f35 bfs).length⟩)
  rw [h35t] at e3
  have hd3 := drop_encoded hd2
  rw [h35t] at hd3
  have hscan : scanFields ((bfs.map fieldEncode).flatten ++
      fieldEncode ⟨10, pad3 (checkOf f8 f35 bfs)⟩)
      ((((with_capacity 16).add_field f8).add_field
          ⟨9, natDec (bodyOf f35 bfs).length⟩).add_field f35) =
      .ok (decodedOf f8 f35 bfs) := by
    rw [scan_concat bfs hbfs]
    have hstep := scan_field_step (fieldOk_check (checkOf f8 f35 bfs)) []
      (bfs.foldl add_field
        ((((with_capacity 16).add_field f8).add_field
            ⟨9, natDec (bodyOf f35 bfs).length⟩).add_field f35))
    rw [List.append_nil, scanFields_nil] at hstep
    rw [hstep]
    rfl
  unfold decodeFields
  simp only [e1, e2, e3, hd3, hscan]

theorem decode_wireOf {f8 f35 : FixField} (hf8 : FieldOk f8)
    (h8t : f8.tag = 8) (hf35 : FieldOk f35) (h35t : f35.tag = 35)
    {bfs : List FixField} (hbfs : ∀ g ∈ bfs, FieldOk g) :
    decode (wireOf f8 f35 bfs) = .ok (decodedOf f8 f35 bfs) := by
  have hDF := decodeFields_wireOf hf8 h8t hf35 h35t hbfs
  have hc256 : checkOf f8 f35 bfs < 256 := Nat.mod_lt _ (by norm_num)
  have hget10 : (decodedOf f8 f35 bfs).get_field 10 =
      some ⟨10, pad3 (checkOf f8 f35 bfs)⟩ := by
    unfold decodedOf
    rw [get_field_add, if_pos rfl]
  have htail : (wireOf f8 f35 bfs) = wirePre f8 (bodyOf f35 bfs) ++
      ([49, 48, 61] ++ pad3 (checkOf f8 f35 bfs) ++ [SOH]) := by
    unfold wireOf
    simp [List.append_assoc]
  have hlen7 : ([49, 48, 61] ++ pad3 (checkOf f8 f35 bfs) ++ [SOH]).length = 7 := by
    simp [pad3_length (lt_trans hc256 (by norm_num))]
  have htake : (wireOf f8 f35 bfs).take ((wireOf f8 f35 bfs).length - 7) =
      wirePre f8 (bodyOf f35 bfs) := by
    rw [htail, List.length_append, hlen7, Nat.add_sub_cancel, take_append_len]
  unfold decode
  simp only [hDF, hget10, parseU32_pad3 (lt_trans hc256 (by norm_num)), htake]
  have hne : ¬(sumBytes (wirePre f8 (bodyOf f35 bfs)) % 256 ≠ checkOf f8 f35 bfs) := by
    unfold checkOf
    simp
  rw [if_neg hne]

end FixMessage

namespace FixMessage

theorem wf_mem_order_of_get {m : FixMessage} (hw : Wf m) {t : Nat} {f : FixField}
    (h : m.get_field t = some f) : t ∈ m.field_order := by
  apply (hw.2.1 t).1
  rw [← mapGet_isSome_iff]
  unfold get_field at h
  rw [h]
  rfl

theorem decodedOf_get {m : FixMessage} {f8 f35 : FixField} (hw : Wf m)
    (h8 : m.get_field 8 = some f8) (h35 : m.get_field 35 = some f35)
    {t : Nat} (h9 : t ≠ 9) (h10 : t ≠ 10) :
    (decodedOf f8 f35 (bodyTagFields m m.field_order)).get_field t =
      m.get_field t := by
  have h8t : f8.tag = 8 := wf_get_tag hw h8
  have h35t : f35.tag = 35 := wf_get_tag hw h35
  unfold decodedOf
  rw [get_field_add, if_neg (show ¬(t = (10 : Nat)) from h10)]
  by_cases ht8 : t = 8
  · subst ht8
    have hmemtags : ∀ g ∈ bodyTagFields m m.field_order, g.tag ≠ 8 := by
      intro g hg
      obtain ⟨s, _, ⟨c8, _, _, _⟩, hget⟩ := bodyTagFields_sound hg
      rw [wf_get_tag hw hget]
      exact c8
    rw [foldl_add_get_notag _ _ hmemtags, get_field_add,
      if_neg (show ¬((8 : Nat) = f35.tag) from by rw [h35t]; norm_num),
      get_field_add, if_neg (show ¬((8 : Nat) = (9 : Nat)) from by norm_num),
      get_field_add, if_pos h8t.symm, h8]
  · by_cases ht35 : t = 35
    · subst ht35
      have hmemtags : ∀ g ∈ bodyTagFields m m.field_order, g.tag ≠ 35 := by
        intro g hg
        obtain ⟨s, _, ⟨_, _, c35, _⟩, hget⟩ := bodyTagFields_sound hg
        rw [wf_get_tag hw hget]
        exact c35
      rw [foldl_add_get_notag _ _ hmemtags, get_field_add, if_pos h35t.symm, h35]
    · cases hmt : m.get_field t with
      | some f =>
        have hford : t ∈ m.field_order := wf_mem_order_of_get hw hmt
        have hf : f ∈ bodyTagFields m m.field_order :=
          bodyTagFields_complete hford ht8 h9 ht35 h10 hmt
        have hftag : f.tag = t := wf_get_tag hw hmt
        have hconst : ∀ g ∈ bodyTagFields m m.field_order, g.tag = t → g = f := by
          intro g hg hgt
          obtain ⟨s, _, _, hget⟩ := bodyTagFields_sound hg
          have hgs : g.tag = s := wf_get_tag hw hget
          rw [hgs] at hgt
          subst hgt
          rw [hmt] at hget
          exact (Option.some.inj hget).symm
        rw [foldl_add_get_const _ _ hftag hconst hf]
      | none =>
        have hnotord : t ∉ m.field_order := by
          intro hc
          have hs := wf_get_isSome hw hc
          rw [hmt] at hs
          cases hs
        have hnone : ∀ g ∈ bodyTagFields m m.field_order, g.tag ≠ t := by
          intro g hg hgt
          obtain ⟨s, hs, _, hget⟩ := bodyTagFields_sound hg
          have hgs : g.tag = s := wf_get_tag hw hget
          rw [hgs] at hgt
          subst hgt
          exact hnotord hs
        rw [foldl_add_get_notag _ _ hnone, get_field_add,
          if_neg (show ¬(t = f35.tag) from by rw [h35t]; exact ht35),
          get_field_add, if_neg (show ¬(t = (9 : Nat)) from h9),
          get_field_add, if_neg (show ¬(t = f8.tag) from by rw [h8t]; exact ht8)]
        exact rfl

end FixMessage

namespace FixMessage

theorem decodeFields_error {data : List Nat} {e : FixError}
    (h : decodeFields data = .error e) : e = .InvalidFormat := by
  unfold decodeFields at h
  split at h
  · next heq => cases h; exact extract_field_error heq
  · split at h
    · next heq => cases h; exact extract_field_error heq
    · split at h
      · next heq => cases h; exact extract_field_error heq
      · exact scanFields_error h

theorem encode_ok_decomp {m : FixMessage} {buf : List Nat}
    (h : encode m = .ok buf) :
    ∃ f8b body,
      buf = (f8b ++ [57, 61] ++ natDec body.length ++ [SOH] ++ body) ++
        [49, 48, 61] ++
        pad3 (sumBytes (f8b ++ [57, 61] ++ natDec body.length ++ [SOH] ++ body) % 256) ++
        [SOH] := by
  unfold encode at h
  split at h
  · cases h
  · split at h
    · cases h
    · next f8b hf8 =>
      split at h
      · cases h
      · next f35b hf35 =>
        split at h
        · cases h
        · next rb hrb =>
          cases h
          exact ⟨f8b, f35b ++ rb, rfl⟩


theorem extract_span_false {data : List Nat} {pos expected : Nat}
    (msg : FixMessage) (h : spanCheck (data.drop pos) expected = false) :
    extract_field data pos expected msg = .error .InvalidFormat := by
  unfold spanCheck at h
  unfold extract_field
  split at h
  · next heq => simp only [heq]
  · next i heq =>
    split at h
    · next heq2 => rfl
    · next j heq2 =>
      split at h
      · next heq3 => rfl
      · next tag heq3 =>
        simp only [beq_eq_false_iff_ne, ne_eq] at h
        rw [if_pos h]

theorem extract_span_true {data : List Nat} {pos expected : Nat}
    (msg : FixMessage) (h : spanCheck (data.drop pos) expected = true) :
    ∃ msg', extract_field data pos expected msg =
      .ok (pos + spanLen (data.drop pos), msg') := by
  unfold spanCheck at h
  unfold extract_field spanLen
  split at h
  · next heq => cases h
  · next i heq =>
    split at h
    · next heq2 => cases h
    · next j heq2 =>
      split at h
      · next heq3 => cases h
      · next tag heq3 =>
        have htag : tag = expected := by simpa using h
        subst htag
        refine ⟨msg.add_field ⟨tag, ((data.drop pos).take i).drop (j + 1)⟩, ?_⟩
        rw [if_neg (by simp), Nat.add_assoc]

end FixMessage

namespace FixMessage

theorem headerOk_false_decode {data : List Nat} (h : headerOk data = false) :
    decode data = .error .InvalidFormat := by
  have hdf : decodeFields data = .error .InvalidFormat := by
    unfold headerOk at h
    unfold decodeFields
    cases hs1 : spanCheck data 8 with
    | false =>
      have he := @extract_span_false data 0 8
        (with_capacity 16) (by rw [List.drop_zero]; exact hs1)
      simp only [he]
    | true =>
      obtain ⟨msg1, he1⟩ := @extract_span_true data 0 8
        (with_capacity 16) (by rw [List.drop_zero]; exact hs1)
      rw [List.drop_zero, Nat.zero_add] at he1
      rw [hs1] at h
      simp only [Bool.true_and] at h
      cases hs2 : spanCheck (data.drop (spanLen data)) 9 with
      | false =>
        have he2 := extract_span_false msg1 hs2
        simp only [he1, he2]
      | true =>
        obtain ⟨msg2, he2⟩ := extract_span_true msg1 hs2
        rw [hs2] at h
        simp only [Bool.true_and] at h
        rw [List.drop_drop] at h
        have he3 := extract_span_false msg2 h
        simp only [he1, he2, he3]
  unfold decode
  rw [hdf]

/-! ### Lower bounds on header-field positions (for slice safety) -/

theorem extract_field_pos_ge {data : List Nat} {pos expected : Nat}
    {msg : FixMessage} {pos' : Nat} {msg' : FixMessage}
    (h : extract_field data pos expected msg = .ok (pos', msg')) :
    pos + 3 ≤ pos' ∧ (10 ≤ expected → pos + 4 ≤ pos') := by
  unfold extract_field at h
  split at h
  · cases h
  · next i hm =>
    split at h
    · cases h
    · next j he =>
      split at h
      · cases h
      · next tag hp =>
        split at h
        · cases h
        · next hne =>
          cases h
          have htag : tag = expected := by
            by_contra hc
            exact hne hc
          have hjlt : j < ((data.drop pos).take i).length := memchr_lt he
          have hne1 : ((data.drop pos).take i).take j ≠ [] := parseU32_ne_nil hp
          have hj1 : 1 ≤ j := by
            by_contra hc
            push_neg at hc
            interval_cases j
            · exact hne1 rfl
          have hile : ((data.drop pos).take i).length ≤ i := by
            rw [List.length_take]
            omega
          constructor
          · omega
          · intro hexp
            have h2 : 2 ≤ (((data.drop pos).take i).take j).length := by
              apply parseU32_length_two hp
              omega
            rw [List.length_take] at h2
            omega

theorem scanFieldsAux_ten {fuel : Nat} :
    ∀ {s : List Nat} {m msg : FixMessage},
      scanFieldsAux fuel s m = .ok msg →
      (msg.get_field 10).isSome = true →
      (m.get_field 10).isSome = true ∨ 4 ≤ s.length := by
  induction fuel with
  | zero =>
    intro s m msg h hg
    cases s with
    | nil =>
      rw [scanFieldsAux_nil] at h
      cases h
      exact Or.inl hg
    | cons b rest => cases h
  | succ f ih =>
    intro s m msg h hg
    cases s with
    | nil =>
      rw [scanFieldsAux_nil] at h
      cases h
      exact Or.inl hg
    | cons b rest =>
      rw [scanFieldsAux_cons_succ] at h
      cases hm : memchr SOH (b :: rest) with
      | none => simp only [hm] at h; cases h
      | some i =>
        have hilt : i < (b :: rest).length := memchr_lt hm
        cases he : memchr EQUALS ((b :: rest).take i) with
        | none =>
          simp only [hm, he] at h
          rcases ih h hg with hl | hr
          · exact Or.inl hl
          · right
            rw [List.length_drop] at hr
            omega
        | some j =>
          cases hp : parseU32 (((b :: rest).take i).take j) with
          | none => simp only [hm, he, hp] at h; cases h
          | some tag =>
            simp only [hm, he, hp] at h
            rcases ih h hg with hl | hr
            · rw [get_field_add] at hl
              by_cases ht : (10 : Nat) = tag
              · right
                subst ht
                have h2 : 2 ≤ ((((b :: rest).take i).take j)).length :=
                  parseU32_length_two hp (by omega)
                have ht1 := List.length_take_le j ((b :: rest).take i)
                have ht2 := List.length_take_le i (b :: rest)
                have hjlt : j < ((b :: rest).take i).length := memchr_lt he
                rw [List.length_cons] at hilt ⊢
                omega
              · rw [if_neg ht] at hl
                exact Or.inl hl
            · right
              rw [List.length_drop] at hr
              omega

theorem extract_field_msg {data : List Nat} {pos expected : Nat}
    {msg : FixMessage} {pos' : Nat} {msg' : FixMessage}
    (h : extract_field data pos expected msg = .ok (pos', msg')) :
    ∃ v, msg' = msg.add_field ⟨expected, v⟩ := by
  unfold extract_field at h
  split at h
  · cases h
  · next i hm =>
    split at h
    · cases h
    · next j he =>
      split at h
      · cases h
      · next tag hp =>
        split at h
        · cases h
        · next hne =>
          cases h
          have htag : tag = expected := by
            by_contra hc
            exact hne hc
          subst htag
          exact ⟨_, rfl⟩

theorem decodeFields_min_length {data : List Nat} {msg : FixMessage}
    (h : decodeFields data = .ok msg)
    (hg : (msg.get_field 10).isSome = true) : 14 ≤ data.length := by
  unfold decodeFields at h
  split at h
  · cases h
  · next pos1 m1 heq1 =>
    split at h
    · cases h
    · next pos2 m2 heq2 =>
      split at h
      · cases h
      · next pos3 m3 heq3 =>
        have hb1 := extract_field_pos_ge heq1
        have hb2 := extract_field_pos_ge heq2
        have hb3 := extract_field_pos_ge heq3
        have hm3 : (m3.get_field 10).isSome = false := by
          obtain ⟨v1, he1⟩ := extract_field_msg heq1
          obtain ⟨v2, he2⟩ := extract_field_msg heq2
          obtain ⟨v3, he3⟩ := extract_field_msg heq3
          subst he1; subst he2; subst he3
          rw [get_field_add, if_neg (by norm_num)]
          rw [get_field_add, if_neg (by norm_num)]
          rw [get_field_add, if_neg (by norm_num)]
          rfl
        rcases scanFieldsAux_ten h hg with hl | hr
        · rw [hm3] at hl
          cases hl
        · rw [List.length_drop] at hr
          have hle3 : pos3 ≤ data.length := (extract_field_le heq3).1
          have := hb3.2 (by norm_num)
          omega

end FixMessage

namespace FixMessage

theorem wf_len_dedup {m : FixMessage} (hw : Wf m) :
    m.len = m.field_order.dedup.length := by
  have hfin : (m.fields.map Prod.fst).toFinset = m.field_order.toFinset := by
    ext t
    simp only [List.mem_toFinset]
    exact hw.2.1 t
  have h1 : m.len = (m.fields.map Prod.fst).length := by
    unfold len
    rw [List.length_map]
  rw [h1, ← List.card_toFinset m.field_order, ← hfin, List.card_toFinset,
    List.Nodup.dedup hw.1]

theorem encode_missing8 {m : FixMessage} (h : m.get_field 8 = none) :
    encode m = .error (.MissingField 8) := by
  unfold encode calculate_message_size
  simp only [h]

theorem encode_missing35 {m : FixMessage} {f8 : FixField} (hw : Wf m)
    (h8 : m.get_field 8 = some f8) (h35 : m.get_field 35 = none) :
    encode m = .error (.MissingField 35) := by
  obtain ⟨n, hn⟩ := calculate_message_size_ok hw h8
  have he8 : m.encode_field 8 = .ok (fieldEncode f8) := by
    unfold encode_field
    rw [h8]
  have he35 : m.encode_field 35 = .error (.MissingField 35) := by
    unfold encode_field
    rw [h35]
  unfold encode
  simp only [hn, he8, he35]

end FixMessage

/-! ### List utilities for single-byte corruption -/

theorem getD_of_drop_cons :
    ∀ (l : List Nat) (k : Nat) {x : Nat} {rest : List Nat},
      l.drop k = x :: rest → l.getD k 0 = x := by
  intro l
  induction l with
  | nil => intro k x rest h; simp at h
  | cons y ys ih =>
    intro k x rest h
    cases k with
    | zero =>
      rw [List.drop_zero] at h
      cases h
      rfl
    | succ k' =>
      rw [List.drop_succ_cons] at h
      exact ih k' h

theorem sumBytes_set :
    ∀ (l : List Nat) (i : Nat) (b : Nat), i < l.length →
      sumBytes (l.set i b) + l.getD i 0 = sumBytes l + b := by
  intro l
  induction l with
  | nil => intro i b h; simp at h
  | cons y ys ih =>
    intro i b h
    cases i with
    | zero =>
      simp only [List.set_cons_zero, List.getD_cons_zero, sumBytes]
      omega
    | succ i' =>
      simp only [List.set_cons_succ, List.getD_cons_succ, sumBytes]
      have := ih i' b (by simpa using Nat.lt_of_succ_lt_succ h)
      omega

theorem set_append_of_lt :
    ∀ (a : List Nat) (i : Nat) (y : Nat) (b : List Nat), i < a.length →
      (a ++ b).set i y = a.set i y ++ b := by
  intro a
  induction a with
  | nil => intro i y b h; simp at h
  | cons x xs ih =>
    intro i y b h
    cases i with
    | zero => rfl
    | succ i' =>
      simp only [List.cons_append, List.set_cons_succ]
      rw [ih i' y b (by simpa using Nat.lt_of_succ_lt_succ h)]

theorem set_len_append :
    ∀ (a : List Nat) (x y : Nat) (b : List Nat),
      (a ++ x :: b).set a.length y = a ++ y :: b := by
  intro a
  induction a with
  | nil => intro x y b; rfl
  | cons z zs ih =>
    intro x y b
    simp only [List.cons_append, List.length_cons, List.set_cons_succ]
    rw [ih]

theorem getD_append_lt :
    ∀ (a b : List Nat) (i : Nat), i < a.length →
      (a ++ b).getD i 0 = a.getD i 0 := by
  intro a
  induction a with
  | nil => intro b i h; simp at h
  | cons x xs ih =>
    intro b i h
    cases i with
    | zero => rfl
    | succ i' =>
      simp only [List.cons_append, List.getD_cons_succ]
      exact ih b i' (by simpa using Nat.lt_of_succ_lt_succ h)

theorem getD_len_append :
    ∀ (a : List Nat) (x : Nat) (b : List Nat),
      (a ++ x :: b).getD a.length 0 = x := by
  intro a
  induction a with
  | nil => intro x b; rfl
  | cons z zs ih =>
    intro x b
    simp only [List.cons_append, List.length_cons, List.getD_cons_succ]
    exact ih x b

theorem getD_mem_of_lt :
    ∀ (l : List Nat) (i : Nat), i < l.length → l.getD i 0 ∈ l := by
  intro l
  induction l with
  | nil => intro i h; simp at h
  | cons x xs ih =>
    intro i h
    cases i with
    | zero => simp
    | succ i' =>
      simp only [List.getD_cons_succ]
      exact List.mem_cons_of_mem x (ih i' (by simpa using Nat.lt_of_succ_lt_succ h))

theorem take_set_of_lt :
    ∀ (l : List Nat) (i k b : Nat), i < k →
      (l.set i b).take k = (l.take k).set i b := by
  intro l
  induction l with
  | nil => intro i k b _; simp
  | cons x xs ih =>
    intro i k b h
    cases i with
    | zero =>
      cases k with
      | zero => simp at h
      | succ k' => rfl
    | succ i' =>
      cases k with
      | zero => simp at h
      | succ k' =>
        simp only [List.set_cons_succ, List.take_succ_cons]
        rw [ih i' k' b (Nat.lt_of_succ_lt_succ h)]

theorem memchr_none_mem {c : Nat} :
    ∀ {l : List Nat}, memchr c l = none → ∀ x ∈ l, x ≠ c := by
  intro l
  induction l with
  | nil => intro _ x hx; simp at hx
  | cons b bs ih =>
    intro h x hx
    unfold memchr at h
    split at h
    · cases h
    · next hb =>
      rcases List.mem_cons.1 hx with rfl | hx2
      · exact hb
      · cases hm : memchr c bs with
        | none => exact ih hm x hx2
        | some j => rw [hm] at h; cases h

theorem memchr_append_some {c : Nat} :
    ∀ {a : List Nat} {i : Nat} (b : List Nat), memchr c a = some i →
      memchr c (a ++ b) = some i := by
  intro a
  induction a with
  | nil => intro i b h; cases h
  | cons x xs ih =>
    intro i b h
    rw [List.cons_append]
    by_cases hx : x = c
    · simp only [memchr, if_pos hx] at h ⊢
      exact h
    · simp only [memchr, if_neg hx] at h ⊢
      cases hm : memchr c xs with
      | none => rw [hm] at h; cases h
      | some j =>
        rw [hm] at h
        rw [ih b hm]
        exact h

theorem memchr_append_none {c : Nat} {a : List Nat} (b : List Nat)
    (h : memchr c a = none) : memchr c (a ++ c :: b) = some a.length := by
  rw [memchr_append (memchr_none_mem h), memchr_cons_self]
  simp

theorem take_append_le :
    ∀ (a b : List Nat) (i : Nat), i ≤ a.length → (a ++ b).take i = a.take i := by
  intro a
  induction a with
  | nil =>
    intro b i h
    simp at h
    simp [h]
  | cons x xs ih =>
    intro b i h
    cases i with
    | zero => rfl
    | succ i' =>
      simp only [List.cons_append, List.take_succ_cons]
      rw [ih b i' (by simpa using Nat.le_of_succ_le_succ h)]

theorem drop_append_le :
    ∀ (a b : List Nat) (i : Nat), i ≤ a.length → (a ++ b).drop i = a.drop i ++ b := by
  intro a
  induction a with
  | nil =>
    intro b i h
    simp at h
    simp [h]
  | cons x xs ih =>
    intro b i h
    cases i with
    | zero => rfl
    | succ i' =>
      simp only [List.cons_append, List.drop_succ_cons]
      exact ih b i' (by simpa using Nat.le_of_succ_le_succ h)

theorem natDec_bytes_lt (n : Nat) : ∀ x ∈ natDec n, x < 256 := by
  intro x hx
  have := isDigit_bounds (natDec_all_digits n x hx)
  omega

theorem pad3_bytes_lt (n : Nat) : ∀ x ∈ pad3 n, x < 256 := by
  intro x hx
  have := isDigit_bounds (pad3_all_digits n x hx)
  omega

theorem fieldEncode_bytes_lt {f : FixField} (hv : ∀ b ∈ f.value, b < 256) :
    ∀ x ∈ fieldEncode f, x < 256 := by
  intro x hx
  unfold fieldEncode at hx
  simp only [List.append_assoc, List.mem_append, List.mem_singleton] at hx
  rcases hx with h | h | h | h
  · exact natDec_bytes_lt _ x h
  · subst h; simp [EQUALS]
  · exact hv x h
  · subst h; simp [SOH]

namespace FixMessage


theorem msgBytes_get {m : FixMessage} (hb : MsgBytes m) {t : Nat} {f : FixField}
    (h : m.get_field t = some f) : ∀ b ∈ f.value, b < 256 :=
  hb (t, f) (get_field_mem_entry h)

theorem wirePre_bytes_lt {f8 f35 : FixField} {bfs : List FixField}
    (h8 : ∀ b ∈ f8.value, b < 256) (h35 : ∀ b ∈ f35.value, b < 256)
    (hbfs : ∀ g ∈ bfs, ∀ b ∈ g.value, b < 256) :
    ∀ x ∈ wirePre f8 (bodyOf f35 bfs), x < 256 := by
  intro x hx
  unfold wirePre bodyOf at hx
  simp only [List.mem_append] at hx
  rcases hx with ((((h | h) | h) | h) | (h | h))
  · exact fieldEncode_bytes_lt h8 x h
  · simp only [List.mem_cons, List.not_mem_nil, or_false] at h
    rcases h with rfl | rfl <;> norm_num
  · exact natDec_bytes_lt _ x h
  · simp only [List.mem_singleton] at h
    subst h
    simp [SOH]
  · exact fieldEncode_bytes_lt h35 x h
  · rw [List.mem_flatten] at h
    obtain ⟨l, hl, hxl⟩ := h
    rw [List.mem_map] at hl
    obtain ⟨g, hg, rfl⟩ := hl
    exact fieldEncode_bytes_lt (hbfs g hg) x hxl

theorem scanLast10_base {ccc : List Nat} (hd : ∀ b ∈ ccc, isDigit b = true)
    (msg : FixMessage) :
    scanFields (fieldEncode ⟨10, ccc⟩) msg = .ok (msg.add_field ⟨10, ccc⟩) := by
  have hok : FieldOk ⟨10, ccc⟩ := by
    refine ⟨by norm_num, ?_⟩
    intro hc
    have := isDigit_bounds (hd SOH hc)
    simp [SOH] at this
  have hstep := scan_field_step hok [] msg
  rw [List.append_nil, scanFields_nil] at hstep
  exact hstep

end FixMessage

namespace FixMessage

theorem scanLast10 :
    ∀ (n : Nat) (s : List Nat), s.length ≤ n →
      ∀ {ccc : List Nat} (msg res : FixMessage),
        (∀ b ∈ ccc, isDigit b = true) →
        (s = [] ∨ ∃ s', s = s' ++ [SOH]) →
        scanFields (s ++ fieldEncode ⟨10, ccc⟩) msg = .ok res →
        res.get_field 10 = some ⟨10, ccc⟩ := by
  intro n
  induction n with
  | zero =>
    intro s hlen ccc msg res hd hshape h
    have hs : s = [] := List.eq_nil_of_length_eq_zero (Nat.le_zero.1 hlen)
    subst hs
    rw [List.nil_append, scanLast10_base hd] at h
    cases h
    rw [get_field_add, if_pos rfl]
  | succ n ih =>
    intro s hlen ccc msg res hd hshape h
    rcases hshape with rfl | ⟨s', rfl⟩
    · rw [List.nil_append, scanLast10_base hd] at h
      cases h
      rw [get_field_add, if_pos rfl]
    · rw [List.append_assoc] at h
      have hslen : s'.length ≤ n := by
        rw [List.length_append] at hlen
        simp at hlen
        omega
      cases hms : memchr SOH s' with
      | some i =>
        have hm : memchr SOH (s' ++ ([SOH] ++ fieldEncode ⟨10, ccc⟩)) = some i :=
          memchr_append_some _ hms
        have hi : i < s'.length := memchr_lt hms
        have hne : s' ++ ([SOH] ++ fieldEncode ⟨10, ccc⟩) ≠ [] := by
          simp
        rw [scanFields_step hne hm] at h
        have htake : (s' ++ ([SOH] ++ fieldEncode ⟨10, ccc⟩)).take i = s'.take i :=
          take_append_le _ _ _ (le_of_lt hi)
        have hdrop : (s' ++ ([SOH] ++ fieldEncode ⟨10, ccc⟩)).drop (i + 1) =
            s'.drop (i + 1) ++ ([SOH] ++ fieldEncode ⟨10, ccc⟩) :=
          drop_append_le _ _ _ hi
        rw [htake, hdrop, ← List.append_assoc] at h
        have hrec : (s'.drop (i + 1) ++ [SOH]).length ≤ n := by
          rw [List.length_append, List.length_drop]
          simp
          omega
        cases he : memchr EQUALS (s'.take i) with
        | none =>
          simp only [he] at h
          exact ih _ hrec msg res hd (Or.inr ⟨_, rfl⟩) h
        | some j =>
          cases hp : parseU32 ((s'.take i).take j) with
          | none =>
            simp only [he, hp] at h
            cases h
          | some tag =>
            simp only [he, hp] at h
            exact ih _ hrec _ res hd (Or.inr ⟨_, rfl⟩) h
      | none =>
        have hm : memchr SOH (s' ++ ([SOH] ++ fieldEncode ⟨10, ccc⟩)) =
            some s'.length := by
          rw [List.singleton_append]
          exact memchr_append_none _ hms
        have hne : s' ++ ([SOH] ++ fieldEncode ⟨10, ccc⟩) ≠ [] := by
          simp
        rw [scanFields_step hne hm] at h
        have htake : (s' ++ ([SOH] ++ fieldEncode ⟨10, ccc⟩)).take s'.length = s' := by
          rw [take_append_le _ _ _ (le_refl _), List.take_length]
        have hdrop : (s' ++ ([SOH] ++ fieldEncode ⟨10, ccc⟩)).drop (s'.length + 1) =
            fieldEncode ⟨10, ccc⟩ := by
          rw [List.singleton_append, drop_append_len_succ]
        rw [htake, hdrop] at h
        cases he : memchr EQUALS s' with
        | none =>
          simp only [he] at h
          rw [scanLast10_base hd] at h
          cases h
          rw [get_field_add, if_pos rfl]
        | some j =>
          cases hp : parseU32 (s'.take j) with
          | none =>
            simp only [he, hp] at h
            cases h
          | some tag =>
            simp only [he, hp] at h
            rw [scanLast10_base hd] at h
            cases h
            rw [get_field_add, if_pos rfl]

end FixMessage

theorem eq_append_nil {a b : List Nat} (h : a = b) : a = b ++ [] := by
  rw [List.append_nil]
  exact h

theorem memchr_drop_cons {c : Nat} :
    ∀ {l : List Nat} {i : Nat}, memchr c l = some i →
      l.drop i = c :: l.drop (i + 1) := by
  intro l
  induction l with
  | nil => intro i h; cases h
  | cons b bs ih =>
    intro i h
    unfold memchr at h
    split at h
    · next hb =>
      cases h
      subst hb
      rfl
    · next hb =>
      cases hm : memchr c bs with
      | none => rw [hm] at h; cases h
      | some j =>
        rw [hm] at h
        simp only [Option.map_some'] at h
        cases h
        simp only [List.drop_succ_cons]
        exact ih hm

theorem getD_append_ge :
    ∀ (a b : List Nat) (k : Nat), a.length ≤ k →
      (a ++ b).getD k 0 = b.getD (k - a.length) 0 := by
  intro a
  induction a with
  | nil => intro b k _; simp
  | cons x xs ih =>
    intro b k h
    cases k with
    | zero => simp at h
    | succ k' =>
      simp only [List.cons_append, List.getD_cons_succ, List.length_cons,
        Nat.succ_sub_succ]
      exact ih b k' (by simpa using Nat.le_of_succ_le_succ h)

namespace FixMessage

theorem extract_field_soh {data : List Nat} {pos expected : Nat}
    {msg : FixMessage} {pos' : Nat} {msg' : FixMessage}
    (h : extract_field data pos expected msg = .ok (pos', msg')) :
    ∃ i, memchr SOH (data.drop pos) = some i ∧ pos' = pos + i + 1 := by
  unfold extract_field at h
  split at h
  · cases h
  · next i hm =>
    split at h
    · cases h
    · split at h
      · cases h
      · split at h
        · cases h
        · cases h
          exact ⟨i, hm, rfl⟩

theorem soh_pos_classify {q : List Nat} {c0 c1 c2 : Nat}
    (hd : ∀ b ∈ [c0, c1, c2], isDigit b = true) {p : Nat}
    (hp1 : 1 ≤ p)
    (hsoh : (q ++ [SOH] ++ fieldEncode ⟨10, [c0, c1, c2]⟩).drop (p - 1) =
      SOH :: (q ++ [SOH] ++ fieldEncode ⟨10, [c0, c1, c2]⟩).drop p)
    (hp : p ≤ (q ++ [SOH] ++ fieldEncode ⟨10, [c0, c1, c2]⟩).length) :
    p ≤ q.length + 1 ∨ p = (q ++ [SOH] ++ fieldEncode ⟨10, [c0, c1, c2]⟩).length := by
  have hE : fieldEncode ⟨10, [c0, c1, c2]⟩ = [49, 48, 61, c0, c1, c2, SOH] := by
    simp [fieldEncode, natDec_ten, EQUALS]
  have hlen : (q ++ [SOH] ++ fieldEncode ⟨10, [c0, c1, c2]⟩).length = q.length + 8 := by
    rw [hE]
    simp
  by_contra hcon
  push_neg at hcon
  obtain ⟨hgt, hne⟩ := hcon
  have hrange : q.length + 1 ≤ p - 1 ∧ p - 1 ≤ q.length + 6 := by
    rw [hlen] at hp
    omega
  have hbyte : (q ++ [SOH] ++ fieldEncode ⟨10, [c0, c1, c2]⟩).getD (p - 1) 0 = SOH :=
    getD_of_drop_cons _ _ hsoh
  have hsplit : q ++ [SOH] ++ fieldEncode ⟨10, [c0, c1, c2]⟩ =
      (q ++ [SOH]) ++ [49, 48, 61, c0, c1, c2, SOH] := by
    rw [hE, List.append_assoc]
  rw [hsplit, getD_append_ge _ _ _ (by simp; omega)] at hbyte
  have hoff : p - 1 - (q ++ [SOH]).length ≤ 5 := by
    simp only [List.length_append, List.length_singleton]
    omega
  have hd0 := isDigit_bounds (hd c0 (by simp))
  have hd1 := isDigit_bounds (hd c1 (by simp))
  have hd2 := isDigit_bounds (hd c2 (by simp))
  set o := p - 1 - (q ++ [SOH]).length with ho
  interval_cases o <;> simp [SOH] at hbyte <;> omega

end FixMessage

namespace FixMessage

theorem decodeFields_get10 {q : List Nat} {c0 c1 c2 : Nat}
    (hd : ∀ b ∈ [c0, c1, c2], isDigit b = true) {msg : FixMessage}
    (h : decodeFields (q ++ [SOH] ++ fieldEncode ⟨10, [c0, c1, c2]⟩) = .ok msg) :
    msg.get_field 10 = some ⟨10, [c0, c1, c2]⟩ ∨ msg.get_field 10 = none := by
  unfold decodeFields at h
  split at h
  · cases h
  · next pos1 m1 heq1 =>
    split at h
    · cases h
    · next pos2 m2 heq2 =>
      split at h
      · cases h
      · next pos3 m3 heq3 =>
        obtain ⟨i, hm, hpos3⟩ := extract_field_soh heq3
        have hple := (extract_field_le heq3).1
        have hsoh : (q ++ [SOH] ++ fieldEncode ⟨10, [c0, c1, c2]⟩).drop (pos3 - 1) =
            SOH :: (q ++ [SOH] ++ fieldEncode ⟨10, [c0, c1, c2]⟩).drop pos3 := by
          have hdec := memchr_drop_cons hm
          rw [List.drop_drop, List.drop_drop] at hdec
          have e1 : pos2 + i = pos3 - 1 := by omega
          have e2 : pos2 + (i + 1) = pos3 := by omega
          rw [e1, e2] at hdec
          exact hdec
        rcases soh_pos_classify hd (by omega) hsoh hple with hle | hlen
        · -- the scan starts inside or right after `q ++ [SOH]`
          have hq1 : pos3 ≤ (q ++ [SOH]).length := by
            simp only [List.length_append, List.length_singleton]
            omega
          have hdropq : (q ++ [SOH] ++ fieldEncode ⟨10, [c0, c1, c2]⟩).drop pos3 =
              (q ++ [SOH]).drop pos3 ++ fieldEncode ⟨10, [c0, c1, c2]⟩ :=
            drop_append_le _ _ _ hq1
          rw [hdropq] at h
          have hshape : (q ++ [SOH]).drop pos3 = [] ∨
              ∃ s', (q ++ [SOH]).drop pos3 = s' ++ [SOH] := by
            by_cases hq : pos3 ≤ q.length
            · right
              exact ⟨q.drop pos3, drop_append_le _ _ _ hq⟩
            · left
              have : pos3 = q.length + 1 := by omega
              rw [this]
              rw [show q.length + 1 = (q ++ [SOH]).length by simp]
              exact List.drop_length _
          exact Or.inl (scanLast10 ((q ++ [SOH]).drop pos3).length _ (le_refl _)
            m3 msg hd hshape h)
        · -- the header extraction consumed the whole buffer
          rw [hlen, List.drop_length, scanFields_nil] at h
          cases h
          right
          obtain ⟨v1, he1⟩ := extract_field_msg heq1
          obtain ⟨v2, he2⟩ := extract_field_msg heq2
          obtain ⟨v3, he3⟩ := extract_field_msg heq3
          subst he1
          subst he2
          subst he3
          rw [get_field_add, if_neg (by norm_num), get_field_add,
            if_neg (by norm_num), get_field_add, if_neg (by norm_num)]
          rfl

end FixMessage

namespace FixMessage

theorem decode_caseA {q : List Nat} {c0 c1 c2 : Nat}
    (hd : ∀ b ∈ [c0, c1, c2], isDigit b = true) {r : Nat}
    (hr : parseU32 [c0, c1, c2] = some r)
    (hsum : sumBytes ((q ++ [SOH] ++ fieldEncode ⟨10, [c0, c1, c2]⟩).take
        ((q ++ [SOH] ++ fieldEncode ⟨10, [c0, c1, c2]⟩).length - 7)) % 256 ≠ r) :
    decode (q ++ [SOH] ++ fieldEncode ⟨10, [c0, c1, c2]⟩) = .error .InvalidFormat ∨
    decode (q ++ [SOH] ++ fieldEncode ⟨10, [c0, c1, c2]⟩) = .error (.MissingField 10) ∨
    decode (q ++ [SOH] ++ fieldEncode ⟨10, [c0, c1, c2]⟩) = .error .InvalidChecksum := by
  cases hdf : decodeFields (q ++ [SOH] ++ fieldEncode ⟨10, [c0, c1, c2]⟩) with
  | error e =>
    left
    unfold decode
    simp only [hdf]
    rw [decodeFields_error hdf]
  | ok msg =>
    rcases decodeFields_get10 hd hdf with h10 | h10
    · right; right
      unfold decode
      simp only [hdf, h10, hr]
      rw [if_pos hsum]
    · right; left
      unfold decode
      simp only [hdf, h10]

theorem decode_caseB1 {f8 f35 : FixField} (hf8 : FieldOk f8) (h8t : f8.tag = 8)
    (hv35 : SOH ∉ f35.value) (L : Nat) {tail : List Nat}
    (htail : SOH ∉ tail) :
    decode (fieldEncode f8 ++ (fieldEncode ⟨9, natDec L⟩ ++
      fieldEncode ⟨35, f35.value ++ tail⟩)) = .error (.MissingField 10) := by
  have hfx : FieldOk ⟨35, f35.value ++ tail⟩ := by
    refine ⟨by norm_num, ?_⟩
    intro hc
    rcases List.mem_append.1 hc with hc | hc
    · exact hv35 hc
    · exact htail hc
  have hd0 : (fieldEncode f8 ++ (fieldEncode ⟨9, natDec L⟩ ++
      fieldEncode ⟨35, f35.value ++ tail⟩)).drop 0 =
      fieldEncode f8 ++ (fieldEncode ⟨9, natDec L⟩ ++
        fieldEncode ⟨35, f35.value ++ tail⟩) := List.drop_zero _
  have e1 := extract_field_encoded hf8 hd0 (with_capacity 16)
  rw [h8t] at e1
  have hd1 := drop_encoded hd0
  rw [h8t] at hd1
  have h9t : (⟨9, natDec L⟩ : FixField).tag = 9 := rfl
  have e2 := extract_field_encoded (fieldOk_len L) hd1 ((with_capacity 16).add_field f8)
  rw [h9t] at e2
  have hd2 := drop_encoded hd1
  rw [h9t] at hd2
  have hd2x := eq_append_nil hd2
  have e3 := extract_field_encoded hfx hd2x
    (((with_capacity 16).add_field f8).add_field ⟨9, natDec L⟩)
  have h35x : (⟨35, f35.value ++ tail⟩ : FixField).tag = 35 := rfl
  rw [h35x] at e3
  have hd3 := drop_encoded hd2x
  rw [h35x] at hd3
  dsimp only at e1 e2 e3 hd3
  unfold decode decodeFields
  simp only [e1, e2, e3, hd3, scanFields_nil]
  rw [get_field_add, if_neg (by norm_num), get_field_add, if_neg (by norm_num),
    get_field_add, if_neg (by rw [h8t]; norm_num), get_field_empty]

theorem decode_caseB2 {f8 f35 g : FixField} (hf8 : FieldOk f8) (h8t : f8.tag = 8)
    (hf35 : FieldOk f35) (h35t : f35.tag = 35) {gs : List FixField}
    (hgs : ∀ x ∈ gs, FieldOk x) (hgs10 : ∀ x ∈ gs, x.tag ≠ 10)
    (hgt : g.tag < 2 ^ 32) (hgv : SOH ∉ g.value) (hgten : g.tag ≠ 10)
    (L : Nat) {tail : List Nat} (htail : SOH ∉ tail) :
    decode (fieldEncode f8 ++ (fieldEncode ⟨9, natDec L⟩ ++ (fieldEncode f35 ++
      ((gs.map fieldEncode).flatten ++
        fieldEncode ⟨g.tag, g.value ++ tail⟩)))) = .error (.MissingField 10) := by
  have hfx : FieldOk ⟨g.tag, g.value ++ tail⟩ := by
    refine ⟨hgt, ?_⟩
    intro hc
    rcases List.mem_append.1 hc with hc | hc
    · exact hgv hc
    · exact htail hc
  have hd0 : (fieldEncode f8 ++ (fieldEncode ⟨9, natDec L⟩ ++ (fieldEncode f35 ++
      ((gs.map fieldEncode).flatten ++ fieldEncode ⟨g.tag, g.value ++ tail⟩)))).drop 0 =
      fieldEncode f8 ++ (fieldEncode ⟨9, natDec L⟩ ++ (fieldEncode f35 ++
        ((gs.map fieldEncode).flatten ++ fieldEncode ⟨g.tag, g.value ++ tail⟩))) :=
    List.drop_zero _
  have e1 := extract_field_encoded hf8 hd0 (with_capacity 16)
  rw [h8t] at e1
  have hd1 := drop_encoded hd0
  rw [h8t] at hd1
  have h9t : (⟨9, natDec L⟩ : FixField).tag = 9 := rfl
  have e2 := extract_field_encoded (fieldOk_len L) hd1 ((with_capacity 16).add_field f8)
  rw [h9t] at e2
  have hd2 := drop_encoded hd1
  rw [h9t] at hd2
  have e3 := extract_field_encoded hf35 hd2
    (((with_capacity 16).add_field f8).add_field ⟨9, natDec L⟩)
  rw [h35t] at e3
  have hd3 := drop_encoded hd2
  rw [h35t] at hd3
  dsimp only at e1 e2 e3 hd3
  have hscan : scanFields ((gs.map fieldEncode).flatten ++
      fieldEncode ⟨g.tag, g.value ++ tail⟩)
      ((((with_capacity 16).add_field f8).add_field ⟨9, natDec L⟩).add_field f35) =
      .ok ((gs.foldl add_field
        ((((with_capacity 16).add_field f8).add_field ⟨9, natDec L⟩).add_field
          f35)).add_field ⟨g.tag, g.value ++ tail⟩) := by
    rw [scan_concat gs hgs]
    have hstep := scan_field_step hfx []
      (gs.foldl add_field
        ((((with_capacity 16).add_field f8).add_field ⟨9, natDec L⟩).add_field f35))
    rw [List.append_nil, scanFields_nil] at hstep
    exact hstep
  unfold decode decodeFields
  simp only [e1, e2, e3, hd3, hscan]
  have hnotag : ∀ x ∈ gs, x.tag ≠ (10 : Nat) := hgs10
  rw [get_field_add, if_neg (fun hc : (10 : Nat) = _ => hgten hc.symm),
    foldl_add_get_notag gs _ hnotag, get_field_add,
    if_neg (by rw [h35t]; norm_num), get_field_add, if_neg (by norm_num),
    get_field_add, if_neg (by rw [h8t]; norm_num), get_field_empty]

theorem wireOf_eq_pre_E (f8 f35 : FixField) (bfs : List FixField) :
    wireOf f8 f35 bfs = wirePre f8 (bodyOf f35 bfs) ++
      fieldEncode ⟨10, pad3 (checkOf f8 f35 bfs)⟩ := by
  unfold wireOf
  simp [fieldEncode, natDec_ten, EQUALS, SOH, List.append_assoc]

theorem c8_caseA_wrap {f8 f35 : FixField} {bfs : List FixField} {Q : List Nat}
    (hQ : wirePre f8 (bodyOf f35 bfs) = Q ++ [SOH]) {c0 c1 c2 : Nat}
    (hc : pad3 (checkOf f8 f35 bfs) = [c0, c1, c2]) {i b' : Nat}
    (hcase : i < Q.length) (hb : b' < 256)
    (hne : b' ≠ (wirePre f8 (bodyOf f35 bfs)).getD i 0)
    (hbytes : ∀ x ∈ wirePre f8 (bodyOf f35 bfs), x < 256) :
    decode ((wireOf f8 f35 bfs).set i b') = .error .InvalidFormat ∨
    decode ((wireOf f8 f35 bfs).set i b') = .error (.MissingField 10) ∨
    decode ((wireOf f8 f35 bfs).set i b') = .error .InvalidChecksum := by
  have hipre : i < (wirePre f8 (bodyOf f35 bfs)).length := by
    rw [hQ, List.length_append]
    simp
    omega
  have hdig : ∀ b ∈ [c0, c1, c2], isDigit b = true := by
    rw [← hc]
    exact pad3_all_digits _
  have hc256 : checkOf f8 f35 bfs < 256 := Nat.mod_lt _ (by norm_num)
  have hdata : (wireOf f8 f35 bfs).set i b' =
      (Q.set i b') ++ [SOH] ++ fieldEncode ⟨10, [c0, c1, c2]⟩ := by
    rw [wireOf_eq_pre_E, hc, set_append_of_lt _ _ _ _ hipre, hQ,
      set_append_of_lt _ _ _ _ hcase]
  rw [hdata]
  have hrv : parseU32 [c0, c1, c2] = some (checkOf f8 f35 bfs) := by
    rw [← hc]
    exact parseU32_pad3 (by omega)
  apply decode_caseA hdig hrv
  · have hlenE : (fieldEncode ⟨10, [c0, c1, c2]⟩).length = 7 := by
      simp [fieldEncode, natDec_ten]
    have hlenQ : (Q.set i b' ++ [SOH] ++ fieldEncode ⟨10, [c0, c1, c2]⟩).length =
        Q.length + 1 + 7 := by
      simp only [List.length_append, List.length_set, hlenE, List.length_singleton]
    have htake : (Q.set i b' ++ [SOH] ++ fieldEncode ⟨10, [c0, c1, c2]⟩).take
        (Q.length + 1 + 7 - 7) = Q.set i b' ++ [SOH] := by
      have hl : Q.length + 1 + 7 - 7 = (Q.set i b' ++ [SOH]).length := by
        simp only [List.length_append, List.length_set, List.length_singleton]
        omega
      rw [hl]
      exact take_append_len _ _
    rw [hlenQ, htake]
    have hsetpre : Q.set i b' ++ [SOH] = (wirePre f8 (bodyOf f35 bfs)).set i b' := by
      rw [hQ, set_append_of_lt _ _ _ _ hcase]
    rw [hsetpre]
    have hsum := sumBytes_set (wirePre f8 (bodyOf f35 bfs)) i b' hipre
    have hlt := hbytes _ (getD_mem_of_lt _ _ hipre)
    have hnec : b' ≠ (wirePre f8 (bodyOf f35 bfs)).getD i 0 := hne
    unfold checkOf
    omega

end FixMessage

namespace FixMessage

theorem wirePre_nil_form {f8 f35 : FixField} (h35t : f35.tag = 35) :
    wirePre f8 (bodyOf f35 []) =
      (fieldEncode f8 ++ [57, 61] ++ natDec (bodyOf f35 []).length ++ [SOH] ++
        (natDec 35 ++ [EQUALS] ++ f35.value)) ++ [SOH] := by
  rw [← h35t]
  unfold wirePre bodyOf
  simp [fieldEncode, List.append_assoc]

theorem wirePre_concat_form (f8 f35 g : FixField) (gs : List FixField) :
    wirePre f8 (bodyOf f35 (gs ++ [g])) =
      (fieldEncode f8 ++ [57, 61] ++ natDec (bodyOf f35 (gs ++ [g])).length ++ [SOH] ++
        fieldEncode f35 ++ (gs.map fieldEncode).flatten ++
        (natDec g.tag ++ [EQUALS] ++ g.value)) ++ [SOH] := by
  unfold wirePre bodyOf
  rw [List.map_append, List.flatten_append]
  simp [fieldEncode, List.append_assoc]

theorem corruption_outcomes {m : FixMessage} {wire : List Nat} {i b' : Nat}
    (hr : Reachable m) (hok : MsgOk m) (hby : MsgBytes m)
    (hw : encode m = .ok wire) (hi : i < wire.length - 7) (hb : b' < 256)
    (hne : b' ≠ wire.getD i 0) :
    decode (wire.set i b') = .error .InvalidFormat ∨
    decode (wire.set i b') = .error (.MissingField 10) ∨
    decode (wire.set i b') = .error .InvalidChecksum := by
  have hwf := reachable_wf hr
  cases hg8 : m.get_field 8 with
  | none => rw [encode_missing8 hg8] at hw; cases hw
  | some f8 =>
  cases hg35 : m.get_field 35 with
  | none => rw [encode_missing35 hwf hg8 hg35] at hw; cases hw
  | some f35 =>
  have hwire : wire = wireOf f8 f35 (bodyTagFields m m.field_order) := by
    rw [encode_eq_wireOf hwf hg8 hg35] at hw
    exact (Except.ok.inj hw).symm
  obtain ⟨hf8ok, h8t⟩ := get_FieldOk hwf hok hg8
  obtain ⟨hf35ok, h35t⟩ := get_FieldOk hwf hok hg35
  have hbfsOk : ∀ g ∈ bodyTagFields m m.field_order, FieldOk g := by
    intro g hg
    obtain ⟨s, _, _, hget⟩ := bodyTagFields_sound hg
    exact (get_FieldOk hwf hok hget).1
  have hbfs10 : ∀ g ∈ bodyTagFields m m.field_order, g.tag ≠ 10 := by
    intro g hg
    obtain ⟨s, _, ⟨_, _, _, h10⟩, hget⟩ := bodyTagFields_sound hg
    rw [wf_get_tag hwf hget]
    exact h10
  have hbfsBytes : ∀ g ∈ bodyTagFields m m.field_order, ∀ b ∈ g.value, b < 256 := by
    intro g hg
    obtain ⟨s, _, _, hget⟩ := bodyTagFields_sound hg
    exact msgBytes_get hby hget
  have hc256 : checkOf f8 f35 (bodyTagFields m m.field_order) < 256 :=
    Nat.mod_lt _ (by norm_num)
  obtain ⟨c0, c1, c2, hc⟩ := List.length_eq_three.1
    (pad3_length (lt_trans hc256 (by norm_num)))
  have hdig : ∀ b ∈ [c0, c1, c2], isDigit b = true := by
    rw [← hc]
    exact pad3_all_digits _
  have hlenE : (fieldEncode ⟨10, [c0, c1, c2]⟩ : List Nat).length = 7 := by
    simp [fieldEncode, natDec_ten]
  have hwE : wire = wirePre f8 (bodyOf f35 (bodyTagFields m m.field_order)) ++
      fieldEncode ⟨10, [c0, c1, c2]⟩ := by
    rw [hwire, wireOf_eq_pre_E, hc]
  have hprebytes : ∀ x ∈ wirePre f8 (bodyOf f35 (bodyTagFields m m.field_order)),
      x < 256 :=
    wirePre_bytes_lt (msgBytes_get hby hg8) (msgBytes_get hby hg35) hbfsBytes
  have hwlen : wire.length =
      (wirePre f8 (bodyOf f35 (bodyTagFields m m.field_order))).length + 7 := by
    rw [hwE, List.length_append, hlenE]
  have hipre : i < (wirePre f8 (bodyOf f35 (bodyTagFields m m.field_order))).length := by
    omega
  have hnepre : b' ≠
      (wirePre f8 (bodyOf f35 (bodyTagFields m m.field_order))).getD i 0 := by
    rw [hwE, getD_append_lt _ _ _ hipre] at hne
    exact hne
  have htailok : SOH ∉ (b' :: [49, 48, 61, c0, c1, c2] : List Nat) →
      True := fun _ => trivial
  rcases List.eq_nil_or_concat (bodyTagFields m m.field_order) with hnil | ⟨gs, g, hcons⟩
  · -- no body fields beyond the message type
    rw [hnil] at hwire hwE hipre hnepre hprebytes hc
    have hQ := @wirePre_nil_form f8 f35 h35t
    have hQlen : i < (fieldEncode f8 ++ [57, 61] ++ natDec (bodyOf f35 []).length ++
        [SOH] ++ (natDec 35 ++ [EQUALS] ++ f35.value)).length + 1 := by
      rw [hQ, List.length_append] at hipre
      simp only [List.length_singleton] at hipre
      omega
    by_cases hcase : i < (fieldEncode f8 ++ [57, 61] ++
        natDec (bodyOf f35 []).length ++ [SOH] ++
        (natDec 35 ++ [EQUALS] ++ f35.value)).length
    · rw [hwire]
      exact c8_caseA_wrap hQ hc hcase hb hnepre hprebytes
    · -- the corrupted byte is the delimiter before the checksum field
      have hieq : i = (fieldEncode f8 ++ [57, 61] ++
          natDec (bodyOf f35 []).length ++ [SOH] ++
          (natDec 35 ++ [EQUALS] ++ f35.value)).length := by
        omega
      have hbne : b' ≠ SOH := by
        rw [hwE, hQ] at hne
        rw [List.append_assoc, List.singleton_append] at hne
        rw [hieq] at hne
        rw [getD_len_append] at hne
        exact hne
      have hdata : wire.set i b' =
          fieldEncode f8 ++ (fieldEncode ⟨9, natDec (bodyOf f35 []).length⟩ ++
            fieldEncode ⟨35, f35.value ++ (b' :: [49, 48, 61, c0, c1, c2])⟩) := by
        rw [hwE, hQ, List.append_assoc, List.singleton_append, hieq,
          set_len_append]
        simp [fieldEncode, natDec_nine, natDec_ten, EQUALS, SOH,
          List.append_assoc, h35t]
      rw [hdata]
      right; left
      apply decode_caseB1 hf8ok h8t hf35ok.2
      intro hcmem
      rcases List.mem_cons.1 hcmem with rfl | hcmem2
      · exact hbne rfl
      · have := hdig
        simp only [List.mem_cons, List.not_mem_nil, or_false] at hcmem2
        rcases hcmem2 with h | h | h | h | h | h
        · simp [SOH] at h
        · simp [SOH] at h
        · simp [SOH] at h
        · obtain ⟨h1, h2⟩ := isDigit_bounds (hdig c0 (by simp))
          simp [SOH] at h
          omega
        · obtain ⟨h1, h2⟩ := isDigit_bounds (hdig c1 (by simp))
          simp [SOH] at h
          omega
        · obtain ⟨h1, h2⟩ := isDigit_bounds (hdig c2 (by simp))
          simp [SOH] at h
          omega
  · -- at least one body field; the last one absorbs the corrupted byte
    rw [List.concat_eq_append] at hcons
    rw [hcons] at hwire hwE hipre hnepre hprebytes hc hbfsOk hbfs10
    have hQ := wirePre_concat_form f8 f35 g gs
    have hgmem : g ∈ gs ++ [g] := by simp
    have hgok := hbfsOk g hgmem
    have hg10 := hbfs10 g hgmem
    by_cases hcase : i < (fieldEncode f8 ++ [57, 61] ++
        natDec (bodyOf f35 (gs ++ [g])).length ++ [SOH] ++ fieldEncode f35 ++
        (gs.map fieldEncode).flatten ++
        (natDec g.tag ++ [EQUALS] ++ g.value)).length
    · rw [hwire]
      exact c8_caseA_wrap hQ hc hcase hb hnepre hprebytes
    · have hieq : i = (fieldEncode f8 ++ [57, 61] ++
          natDec (bodyOf f35 (gs ++ [g])).length ++ [SOH] ++ fieldEncode f35 ++
          (gs.map fieldEncode).flatten ++
          (natDec g.tag ++ [EQUALS] ++ g.value)).length := by
        rw [hQ, List.length_append] at hipre
        simp only [List.length_singleton] at hipre
        omega
      have hbne : b' ≠ SOH := by
        rw [hwE, hQ] at hne
        rw [List.append_assoc, List.singleton_append] at hne
        rw [hieq] at hne
        rw [getD_len_append] at hne
        exact hne
      have hdata : wire.set i b' =
          fieldEncode f8 ++ (fieldEncode ⟨9, natDec (bodyOf f35 (gs ++ [g])).length⟩ ++
            (fieldEncode f35 ++ ((gs.map fieldEncode).flatten ++
              fieldEncode ⟨g.tag, g.value ++ (b' :: [49, 48, 61, c0, c1, c2])⟩))) := by
        rw [hwE, hQ, List.append_assoc, List.singleton_append, hieq,
          set_len_append]
        simp [fieldEncode, natDec_nine, natDec_ten, EQUALS, SOH,
          List.append_assoc]
      rw [hdata]
      right; left
      apply decode_caseB2 hf8ok h8t hf35ok h35t
        (fun x hx => hbfsOk x (by simp [hx])) (fun x hx => hbfs10 x (by simp [hx]))
        hgok.1 hgok.2 hg10
      intro hcmem
      rcases List.mem_cons.1 hcmem with rfl | hcmem2
      · exact hbne rfl
      · simp only [List.mem_cons, List.not_mem_nil, or_false] at hcmem2
        rcases hcmem2 with h | h | h | h | h | h
        · simp [SOH] at h
        · simp [SOH] at h
        · simp [SOH] at h
        · obtain ⟨h1, h2⟩ := isDigit_bounds (hdig c0 (by simp))
          simp [SOH] at h
          omega
        · obtain ⟨h1, h2⟩ := isDigit_bounds (hdig c1 (by simp))
          simp [SOH] at h
          omega
        · obtain ⟨h1, h2⟩ := isDigit_bounds (hdig c2 (by simp))
          simp [SOH] at h
          omega

end FixMessage

namespace FixMessage

theorem sampleMsg_reachable : Reachable sampleMsg :=
  Reachable.add _ (Reachable.add _ (Reachable.add _ Reachable.new))

/-- C1 (corrected): round-trip with tags 9 and 10 re-derived — for a
reachable message holding tags 8 and 35 whose emitted values are
delimiter-free (the tag-9 placeholder and any stored tag-10 value are
unconstrained), decoding a successful encode succeeds, and the decoded
message agrees with the original on every tag except 9, whose decoded
value is the body length encode recomputed, and 10, which decode stores
as the checksum field encode appended. -/
theorem c1_roundtrip_amended (m : FixMessage) (f8 f35 : FixField)
    (hr : Reachable m) (hok : MsgOkBody m)
    (h8 : m.get_field 8 = some f8) (h35 : m.get_field 35 = some f35) :
    ∃ wire m', encode m = .ok wire ∧ decode wire = .ok m' ∧
      (∀ t, t ≠ 9 → t ≠ 10 → m'.get_field t = m.get_field t) ∧
      m'.get_field 9 =
        some ⟨9, natDec (bodyOf f35 (bodyTagFields m m.field_order)).length⟩ ∧
      m'.get_field 10 =
        some ⟨10, pad3 (checkOf f8 f35 (bodyTagFields m m.field_order))⟩ := by
  have hwf := reachable_wf hr
  obtain ⟨hf8ok, h8t⟩ := get_FieldOk_body hwf hok h8 (by norm_num) (by norm_num)
  obtain ⟨hf35ok, h35t⟩ := get_FieldOk_body hwf hok h35 (by norm_num) (by norm_num)
  have hbfsOk : ∀ g ∈ bodyTagFields m m.field_order, FieldOk g := by
    intro g hg
    obtain ⟨s, _, ⟨_, c9, _, c10⟩, hget⟩ := bodyTagFields_sound hg
    exact (get_FieldOk_body hwf hok hget c9 c10).1
  have hmem9 : ∀ g ∈ bodyTagFields m m.field_order, g.tag ≠ 9 := by
    intro g hg
    obtain ⟨s, _, ⟨_, c9, _, _⟩, hget⟩ := bodyTagFields_sound hg
    rw [wf_get_tag hwf hget]
    exact c9
  refine ⟨_, _, encode_eq_wireOf hwf h8 h35,
    decode_wireOf hf8ok h8t hf35ok h35t hbfsOk,
    fun t h9 h10 => decodedOf_get hwf h8 h35 h9 h10, ?_, ?_⟩
  · unfold decodedOf
    rw [get_field_add, if_neg (show ¬((9 : Nat) = (10 : Nat)) from by norm_num),
      foldl_add_get_notag _ _ hmem9, get_field_add,
      if_neg (show ¬((9 : Nat) = f35.tag) from by rw [h35t]; norm_num),
      get_field_add, if_pos (show (9 : Nat) = (9 : Nat) from rfl)]
  · unfold decodedOf
    rw [get_field_add, if_pos (show (10 : Nat) = (10 : Nat) from rfl)]

theorem c1_roundtrip_amended_witness :
    ∃ wire m', encode sampleMsg = .ok wire ∧ decode wire = .ok m' ∧
      (∀ t, t ≠ 9 → t ≠ 10 → m'.get_field t = sampleMsg.get_field t) ∧
      m'.get_field 9 =
        some ⟨9, natDec (bodyOf ⟨35, [68]⟩
          (bodyTagFields sampleMsg sampleMsg.field_order)).length⟩ ∧
      m'.get_field 10 =
        some ⟨10, pad3 (checkOf ⟨8, [70, 73, 88, 46, 52, 46, 50]⟩ ⟨35, [68]⟩
          (bodyTagFields sampleMsg sampleMsg.field_order))⟩ :=
  c1_roundtrip_amended sampleMsg ⟨8, [70, 73, 88, 46, 52, 46, 50]⟩ ⟨35, [68]⟩
    sampleMsg_reachable (by unfold MsgOkBody sampleMsg; decide)
    (by decide) (by decide)

/-- C1 counterexample: for a message whose tag-9 placeholder value is
"100", the decoded tag-9 field differs from the inserted one (decode sees
the recomputed body length instead). -/
theorem c1_counterexample :
    Except.map (fun msg => get_field msg 9)
        (Except.bind (encode sampleMsg) decode) ≠
      Except.ok (get_field sampleMsg 9) := by
  decide

/-- C2 (confirmed): every buffer a successful encode returns ends with the
seven bytes of the checksum field, whose three decimal digits denote the
byte sum of everything before the checksum field, modulo 256; no bound on
the value bytes is needed. -/
theorem c2_checksum_correct (m : FixMessage) (buf : List Nat)
    (h : encode m = .ok buf) :
    ∃ pre ccc, buf = pre ++ [49, 48, 61] ++ ccc ++ [SOH] ∧
      ccc.length = 3 ∧ (∀ b ∈ ccc, isDigit b = true) ∧
      decValAux 0 ccc = sumBytes pre % 256 := by
  obtain ⟨f8b, body, hd⟩ := encode_ok_decomp h
  exact ⟨f8b ++ [57, 61] ++ natDec body.length ++ [SOH] ++ body,
    pad3 (sumBytes (f8b ++ [57, 61] ++ natDec body.length ++ [SOH] ++ body) % 256),
    hd, pad3_length (lt_trans (Nat.mod_lt _ (by norm_num)) (by norm_num)),
    pad3_all_digits _, decVal_pad3 _⟩

theorem c2_checksum_correct_witness :
    ∃ pre ccc, wireSample = pre ++ [49, 48, 61] ++ ccc ++ [SOH] ∧
      ccc.length = 3 ∧ (∀ b ∈ ccc, isDigit b = true) ∧
      decValAux 0 ccc = sumBytes pre % 256 :=
  c2_checksum_correct sampleMsg wireSample (by decide)

/-- C3 (confirmed): the tag-9 field a successful encode emits carries the
decimal rendering of the byte count strictly between its terminating
delimiter and the first byte of the checksum field, with digit bytes only
and no leading zero for a nonzero count. -/
theorem c3_bodylength_correct (m : FixMessage) (buf : List Nat)
    (h : encode m = .ok buf) :
    ∃ pre8 body ccc,
      buf = pre8 ++ [57, 61] ++ natDec body.length ++ [SOH] ++ body ++
        [49, 48, 61] ++ ccc ++ [SOH] ∧
      decValAux 0 (natDec body.length) = body.length ∧
      (∀ b ∈ natDec body.length, isDigit b = true) ∧
      (body.length ≠ 0 →
        ∀ d, (natDec body.length).head? = some d → d ≠ 48) := by
  obtain ⟨f8b, body, hd⟩ := encode_ok_decomp h
  exact ⟨f8b, body,
    pad3 (sumBytes (f8b ++ [57, 61] ++ natDec body.length ++ [SOH] ++ body) % 256),
    hd, decVal_natDec _, natDec_all_digits _,
    fun hne => natDec_head_ne_zero hne⟩

theorem c3_bodylength_correct_witness :
    ∃ pre8 body ccc,
      wireSample = pre8 ++ [57, 61] ++ natDec body.length ++ [SOH] ++ body ++
        [49, 48, 61] ++ ccc ++ [SOH] ∧
      decValAux 0 (natDec body.length) = body.length ∧
      (∀ b ∈ natDec body.length, isDigit b = true) ∧
      (body.length ≠ 0 →
        ∀ d, (natDec body.length).head? = some d → d ≠ 48) :=
  c3_bodylength_correct sampleMsg wireSample (by decide)

/-- C4 (confirmed): after the field-collection phase succeeds, decode
fails with MissingField 10 when no tag-10 field was stored; otherwise it
fails with InvalidFormat when the stored checksum value does not parse,
fails with InvalidChecksum when the parsed value differs from the byte sum
of all input bytes but the last seven modulo 256, and succeeds otherwise. -/
theorem c4_checksum_verification (data : List Nat) (msg : FixMessage)
    (h : decodeFields data = .ok msg) :
    (msg.get_field 10 = none → decode data = .error (.MissingField 10)) ∧
    (∀ cf, msg.get_field 10 = some cf →
      (parseU32 cf.value = none → decode data = .error .InvalidFormat) ∧
      (∀ v, parseU32 cf.value = some v →
        (sumBytes (data.take (data.length - 7)) % 256 ≠ v →
          decode data = .error .InvalidChecksum) ∧
        (sumBytes (data.take (data.length - 7)) % 256 = v →
          decode data = .ok msg))) := by
  refine ⟨fun h10 => ?_, fun cf hcf =>
    ⟨fun hp => ?_, fun v hv => ⟨fun hne => ?_, fun heq => ?_⟩⟩⟩
  · unfold decode
    simp only [h, h10]
  · unfold decode
    simp only [h, hcf, hp]
  · unfold decode
    simp only [h, hcf, hv]
    rw [if_pos hne]
  · unfold decode
    simp only [h, hcf, hv]
    rw [if_neg (not_not_intro heq)]

theorem c4_checksum_verification_witness :
    (decodedSample.get_field 10 = none →
      decode wireSample = .error (.MissingField 10)) ∧
    (∀ cf, decodedSample.get_field 10 = some cf →
      (parseU32 cf.value = none → decode wireSample = .error .InvalidFormat) ∧
      (∀ v, parseU32 cf.value = some v →
        (sumBytes (wireSample.take (wireSample.length - 7)) % 256 ≠ v →
          decode wireSample = .error .InvalidChecksum) ∧
        (sumBytes (wireSample.take (wireSample.length - 7)) % 256 = v →
          decode wireSample = .ok decodedSample))) :=
  c4_checksum_verification wireSample decodedSample (by decide)

/-- C5 (confirmed): for reachable messages, encode fails with
MissingField 8 when tag 8 is absent, fails with MissingField 35 when tag 8
is present but tag 35 absent, and succeeds whenever both are present — no
value is rejected at encode time. -/
theorem c5_encode_failure_modes (m : FixMessage) (hr : Reachable m) :
    (m.get_field 8 = none → encode m = .error (.MissingField 8)) ∧
    (∀ f8, m.get_field 8 = some f8 → m.get_field 35 = none →
      encode m = .error (.MissingField 35)) ∧
    (∀ f8 f35, m.get_field 8 = some f8 → m.get_field 35 = some f35 →
      ∃ buf, encode m = .ok buf) := by
  have hwf := reachable_wf hr
  exact ⟨fun h8 => encode_missing8 h8,
    fun f8 h8 h35 => encode_missing35 hwf h8 h35,
    fun f8 f35 h8 h35 => ⟨_, encode_eq_wireOf hwf h8 h35⟩⟩

theorem c5_encode_failure_modes_witness :
    (sampleMsg.get_field 8 = none →
      encode sampleMsg = .error (.MissingField 8)) ∧
    (∀ f8, sampleMsg.get_field 8 = some f8 → sampleMsg.get_field 35 = none →
      encode sampleMsg = .error (.MissingField 35)) ∧
    (∀ f8 f35, sampleMsg.get_field 8 = some f8 →
      sampleMsg.get_field 35 = some f35 → ∃ buf, encode sampleMsg = .ok buf) :=
  c5_encode_failure_modes sampleMsg sampleMsg_reachable

/-- C6 (confirmed): whenever the three leading delimiter-terminated spans
of the input do not carry parsable tags 8, 9 and 35 in that order — a
delimiter or separator missing, tag text unparsable, or a different tag —
decode fails with InvalidFormat. -/
theorem c6_header_discipline (data : List Nat)
    (h : headerOk data = false) : decode data = .error .InvalidFormat :=
  headerOk_false_decode h

theorem c6_header_discipline_witness :
    decode [57, 61, SOH, 56, 61, SOH, 51, 53, 61, SOH] =
      .error .InvalidFormat :=
  c6_header_discipline _ (by decide)

/-- C7 (corrected): in the scan loop, a span with no terminating delimiter
fails with InvalidFormat, but a delimiter-terminated span with no
separator is silently skipped — the scan continues past it with the
message unchanged, contrary to the claim that it fails. -/
theorem c7_scan_spans_amended (data : List Nat) (msg : FixMessage) :
    (data ≠ [] → memchr SOH data = none →
      scanFields data msg = .error .InvalidFormat) ∧
    (∀ i, memchr SOH data = some i → memchr EQUALS (data.take i) = none →
      scanFields data msg = scanFields (data.drop (i + 1)) msg) := by
  constructor
  · intro hne hm
    cases data with
    | nil => exact absurd rfl hne
    | cons b rest => rw [scanFields_cons, hm]
  · intro i hm he
    have hne : data ≠ [] := by
      intro hc
      rw [hc] at hm
      cases hm
    rw [scanFields_step hne hm msg, he]

theorem c7_scan_spans_amended_witness :
    scanFields [56, SOH] (with_capacity 16) =
      scanFields ([56, SOH].drop (1 + 1)) (with_capacity 16) ∧
    scanFields [88] (with_capacity 16) = .error .InvalidFormat :=
  ⟨(c7_scan_spans_amended [56, SOH] (with_capacity 16)).2 1 (by decide) (by decide),
   (c7_scan_spans_amended [88] (with_capacity 16)).1 (by decide) (by decide)⟩

/-- C7 counterexample: a buffer whose body holds the span "X" with no
separator is not rejected as InvalidFormat; the span is skipped and decode
instead reports the checksum field missing. -/
theorem c7_counterexample :
    decode [56, 61, SOH, 57, 61, SOH, 51, 53, 61, SOH, 88, SOH] =
      .error (.MissingField 10) := by
  decide

/-- C8 (corrected): changing one byte of a successfully encoded buffer
before the checksum field makes decode fail, but not always with
InvalidChecksum: the outcome is InvalidFormat, MissingField 10 or
InvalidChecksum (corrupting a header byte yields InvalidFormat). -/
theorem c8_corruption_amended (m : FixMessage) (wire : List Nat)
    (i b' : Nat) (hr : Reachable m) (hok : MsgOk m) (hby : MsgBytes m)
    (hw : encode m = .ok wire) (hi : i < wire.length - 7) (hb : b' < 256)
    (hne : b' ≠ wire.getD i 0) :
    decode (wire.set i b') = .error .InvalidFormat ∨
    decode (wire.set i b') = .error (.MissingField 10) ∨
    decode (wire.set i b') = .error .InvalidChecksum :=
  corruption_outcomes hr hok hby hw hi hb hne

theorem c8_corruption_amended_witness :
    decode (wireSample.set 2 65) = .error .InvalidFormat ∨
    decode (wireSample.set 2 65) = .error (.MissingField 10) ∨
    decode (wireSample.set 2 65) = .error .InvalidChecksum :=
  c8_corruption_amended sampleMsg wireSample 2 65 sampleMsg_reachable
    (by unfold MsgOk sampleMsg; decide) (by unfold MsgBytes sampleMsg; decide)
    (by decide) (by decide) (by decide) (by decide)

/-- C8 counterexample: flipping the third byte of the begin-string value
of an encoded message (position 0 of the buffer holds the tag text) — here
byte 0, turning tag 8 into tag 7 — makes decode fail with InvalidFormat,
not InvalidChecksum. -/
theorem c8_counterexample :
    Except.map (fun w => decode (w.set 0 55)) (encode sampleMsg) =
      .ok (.error .InvalidFormat) ∧
    (Except.error .InvalidFormat : Except FixError FixMessage) ≠
      .error .InvalidChecksum := by
  decide

/-- C9 (confirmed): every reachable message has a tag retrievable exactly
when it occurs in the order trace, its len equals the number of distinct
tags in the order trace, and with tag 8 present calculate_message_size
never takes the per-tag MissingField branch — it succeeds. -/
theorem c9_map_order_coherence (m : FixMessage) (hr : Reachable m) :
    (∀ t, (m.get_field t).isSome = true ↔ t ∈ m.field_order) ∧
    m.len = m.field_order.dedup.length ∧
    (∀ f8, m.get_field 8 = some f8 →
      ∃ n, m.calculate_message_size = .ok n) := by
  have hwf := reachable_wf hr
  refine ⟨fun t => ⟨fun hs => ?_, fun ht => wf_get_isSome hwf ht⟩,
    wf_len_dedup hwf, fun f8 h8 => calculate_message_size_ok hwf h8⟩
  by_contra hc
  rw [wf_get_none hwf hc] at hs
  cases hs

theorem c9_map_order_coherence_witness :
    (∀ t, (sampleMsg.get_field t).isSome = true ↔
      t ∈ sampleMsg.field_order) ∧
    sampleMsg.len = sampleMsg.field_order.dedup.length ∧
    (∀ f8, sampleMsg.get_field 8 = some f8 →
      ∃ n, sampleMsg.calculate_message_size = .ok n) :=
  c9_map_order_coherence sampleMsg sampleMsg_reachable

/-- C10 (confirmed): whenever the field-collection phase succeeds and a
tag-10 field was stored, the input buffer holds at least 14 bytes, so the
7-byte subtraction in the checksum recomputation cannot underflow. -/
theorem c10_checksum_slice_safe (data : List Nat) (msg : FixMessage)
    (h : decodeFields data = .ok msg)
    (h10 : (msg.get_field 10).isSome = true) : 14 ≤ data.length :=
  decodeFields_min_length h h10

theorem c10_checksum_slice_safe_witness : 14 ≤ wireSample.length :=
  c10_checksum_slice_safe wireSample decodedSample (by decide) (by decide)

end FixMessage
